import Mathlib

/-!
# Range-count tree of `experiment/cw2.go`

A shallow embedding of the tree part of `cw2.go` (`findMinMax`, `build`,
`populate`, `buildTree`, `traverseBottom`, `traverseNearest`, `query`,
`decrypt`) and theorems about it.

Modelling conventions.

* `float32` values are rationals `ℚ`; infinities and NaN are not modelled.  In
  `build`, `populate`, `buildOver`, `buildTree` and `query` the arithmetic is
  exact: the order comparisons and the midpoint expression `lo + (hi - lo) / 2`
  are kept as written, without rounding.  The general statements proved on them
  use of the midpoint only that it lies between the two ends of the range, which
  rounding to nearest preserves as long as `hi - lo` does not overflow.
* `[]*Node` is a list of optional nodes, `none` being the nil pointer left by
  `make`.
* A run-time panic (index out of range, nil dereference, negative `make`
  length) is the result `none`; functions that mutate the tree return the new
  tree.
* Go `int` indices are `Nat` and `Node.Value` is an `Int`.  The leaf count is an
  `Int` (it may be `< 1`) and `buildOver`, `buildTree` compute `2*leaves - 1`
  without wrap-around; `nodesInt` is the same computation on a Go `int` of 32 or
  64 bits, and the two agree whenever `-2^(w-2) < leaves ≤ 2^(w-2)`.  Outside
  that range a negative leaf count can wrap to a positive node count, so the
  statement about leaf counts below 1 carries the range as a hypothesis.
* The construction is also given with the binary32 rounding of every arithmetic
  operation (`buildF32`, `buildOverF32`); it is used where rounding changes the
  answer.
* The external aggregation service is a parameter of `decrypt`.
* The random draws of `query` are explicit arguments.
-/

namespace Cw2

/-! ## Data model -/

/-- One node of the tree (`type Node struct`, lines 19-22): `Range` is the pair
`Range[0], Range[1]`, `Value` the counter. -/
structure Node where
  Range : ℚ × ℚ
  Value : Int
  deriving DecidableEq

/-- The Go slice `[]*Node`; `none` is a nil pointer. -/
abbrev Tree := List (Option Node)

/-- The read `tree[i]` followed by a field access: fails when `i` is out of range
or the pointer is nil. -/
def getNode (tree : Tree) (i : Nat) : Option Node :=
  match tree[i]? with
  | some (some node) => some node
  | _ => none

/-- The assignment `tree[i] = &node`: fails when `i` is out of range. -/
def setNode (tree : Tree) (i : Nat) (node : Node) : Option Tree :=
  if i < tree.length then some (tree.set i (some node)) else none

/-! ## Operations -/

/-- Source `findMinMax` (lines 53-69); `dataset[0]` panics on an empty dataset. -/
def findMinMax (dataset : List ℚ) : Option (ℚ × ℚ) :=
  match dataset with
  | [] => none
  | d0 :: _ =>
    some (dataset.foldl
      (fun (acc : ℚ × ℚ) (value : ℚ) =>
        let min := if value < acc.1 then value else acc.1
        let max := if value > acc.2 then value else acc.2
        (min, max))
      (d0, d0))

/-- Source `build` (lines 154-167). -/
def build (tree : Tree) (newRange : ℚ × ℚ) (i : Nat) (maxlen : Nat) : Option Tree :=
  if _h : i ≥ maxlen then
    some tree
  else
    match setNode tree i { Range := newRange, Value := 0 } with
    | none => none
    | some tree1 =>
      let middle := newRange.1 + (newRange.2 - newRange.1) / 2
      match build tree1 (newRange.1, middle) (2 * i + 1) maxlen with
      | none => none
      | some tree2 => build tree2 (middle, newRange.2) (2 * i + 2) maxlen
termination_by maxlen - i
decreasing_by all_goals omega

/-- Source `populate` (lines 170-186). -/
def populate (tree : Tree) (i : Nat) (value : ℚ) (maxlen : Nat) : Option Tree :=
  match getNode tree i with
  | none => none
  | some node =>
    let tree1 := tree.set i (some { Range := node.Range, Value := node.Value + 1 })
    if _h : 2 * i + 1 ≥ maxlen then
      some tree1
    else if value < node.Range.1 + (node.Range.2 - node.Range.1) / 2 then
      populate tree1 (2 * i + 1) value maxlen
    else if 2 * i + 2 ≥ maxlen then
      some tree1
    else
      populate tree1 (2 * i + 2) value maxlen
termination_by maxlen - i
decreasing_by all_goals omega

/-- The loop `for _, data := range dataset { populate(treeArray, 0, data, nodes) }`
of `buildTree` (lines 204-206). -/
def populateAll (tree : Tree) (dataset : List ℚ) (nodes : Nat) : Option Tree :=
  match dataset with
  | [] => some tree
  | data :: rest =>
    match populate tree 0 data nodes with
    | none => none
    | some tree1 => populateAll tree1 rest nodes

/-- The construction part of `buildTree` (lines 191, 195, 198-202) for a given
domain `min`, `max`: allocate `2*leaves - 1` nil pointers, set the root, build the
two halves.  The node count is computed without wrap-around; `nodesInt` is the
computation on a Go `int`. -/
def buildOver (leaves : Int) (min max : ℚ) : Option Tree :=
  let nodes : Int := 2 * leaves - 1
  if nodes < 0 then
    none
  else
    let treeArray : Tree := List.replicate nodes.toNat none
    let interval := max - min
    let middle := min + interval / 2
    match setNode treeArray 0 { Range := (min, max), Value := 0 } with
    | none => none
    | some tree0 =>
      match build tree0 (min, middle) 1 nodes.toNat with
      | none => none
      | some tree1 => build tree1 (middle, max) 2 nodes.toNat

/-- Source `buildTree` (lines 189-210), the dataset being given instead of read
from a file.  The length test stands for the panic of `make` (line 195), which
precedes `findMinMax` (line 197); the construction itself is `buildOver` with the
domain that `findMinMax` returns. -/
def buildTree (leaves : Int) (dataset : List ℚ) : Option Tree :=
  let nodes : Int := 2 * leaves - 1
  if nodes < 0 then
    none
  else
    match findMinMax dataset with
    | none => none
    | some (min, max) =>
      match buildOver leaves min max with
      | none => none
      | some treeArray => populateAll treeArray dataset nodes.toNat

/-- Source `traverseBottom` (lines 111-133). -/
def traverseBottom (tree : Tree) (i : Nat) (Range : ℚ × ℚ) (maxNodes : Nat) :
    Option (List Nat) :=
  if _h : 2 * i + 1 ≥ maxNodes then
    some [i]
  else
    match getNode tree (2 * i + 1) with
    | none => none
    | some left =>
      match (if Range.1 < left.Range.2 then traverseBottom tree (2 * i + 1) Range maxNodes
             else some []) with
      | none => none
      | some vals =>
        if 2 * i + 2 ≥ maxNodes then
          some vals
        else
          match getNode tree (2 * i + 2) with
          | none => none
          | some right =>
            if Range.2 > right.Range.1 then
              match traverseBottom tree (2 * i + 2) Range maxNodes with
              | none => none
              | some more => some (vals ++ more)
            else
              some vals
termination_by maxNodes - i
decreasing_by all_goals omega

/-- Source `traverseNearest` (lines 136-151). -/
def traverseNearest (tree : Tree) (i : Nat) (Range : ℚ × ℚ) (maxNodes : Nat) :
    Option Nat :=
  if _h : 2 * i + 1 ≥ maxNodes then
    some i
  else
    match getNode tree (2 * i + 1) with
    | none => none
    | some left =>
      if Range.1 ≥ left.Range.1 ∧ Range.2 ≤ left.Range.2 then
        traverseNearest tree (2 * i + 1) Range maxNodes
      else if 2 * i + 2 ≥ maxNodes then
        some i
      else
        match getNode tree (2 * i + 2) with
        | none => none
        | some right =>
          if Range.1 ≥ right.Range.1 ∧ Range.2 ≤ right.Range.2 then
            traverseNearest tree (2 * i + 2) Range maxNodes
          else
            some i
termination_by maxNodes - i
decreasing_by all_goals omega

/-- The sampling part of `query` (lines 90-101): `r1`, `r2` are the two draws of
`rand.Float32()`, in the order they are made. -/
def queryRange (tree : Tree) (r1 r2 : ℚ) : Option (ℚ × ℚ) :=
  match getNode tree 0 with
  | none => none
  | some root =>
    let maxTotal := root.Range.2
    let min := r1 * maxTotal
    let max := r2 * maxTotal
    if min > max then some (max, min) else some (min, max)

/-- Source `query` (lines 88-107). -/
def query (tree : Tree) (r1 r2 : ℚ) : Option (List Nat × List Nat) :=
  match queryRange tree r1 r2 with
  | none => none
  | some range =>
    match traverseBottom tree 0 range tree.length with
    | none => none
    | some terribleIndices =>
      match traverseNearest tree 0 range tree.length with
      | none => none
      | some niceIndices => some (terribleIndices, [niceIndices])

/-- The plaintexts handed to the service by source `encrypt` (lines 394-398):
`tree[i].Value` for every `i`. -/
def plaintexts (tree : Tree) : Option (List Int) :=
  match tree with
  | [] => some []
  | none :: _ => none
  | some node :: rest =>
    match plaintexts rest with
    | none => none
    | some vs => some (node.Value :: vs)

/-- Modelled from the spec: the `Decrypt` capability of the external
Aggregation-Encryption Service (spec section 6), which is not part of the
repository, taken as a parameter.  It receives the plaintexts behind the selected
ciphertexts, the weight vector and the bound the scheme was set up with, and
returns the recovered value or fails. -/
abbrev DecryptService := List Int → List Int → Int → Option Int

/-- The inner product of a vector of plaintexts and a weight vector. -/
def innerProduct : List Int → List Int → Int
  | x :: xs, y :: ys => x * y + innerProduct xs ys
  | _, _ => 0

/-- Modelled from the spec: the decryption contract of sections 4.5 and 4.6: the
service returns the inner product when that value is not negative and lies below
the bound the scheme was set up with.  Nothing is required at or above the
bound. -/
def ExactBelowBound (service : DecryptService) : Prop :=
  ∀ (xs ys : List Int) (bound : Int), xs.length = ys.length →
    0 ≤ innerProduct xs ys → innerProduct xs ys < bound →
    service xs ys bound = some (innerProduct xs ys)

/-- Modelled from the spec: a service that returns the inner product and, as
section 4.6 says, fails when the magnitude of the recovered value exceeds the
bound. -/
def boundedService : DecryptService := fun xs ys bound =>
  if |innerProduct xs ys| ≤ bound then some (innerProduct xs ys) else none

/-- Source `encrypt` (lines 388-427), its results reduced to what `decrypt`
uses: the ciphertext of node `i` is represented by the plaintext `tree[i].Value`
that it encrypts, the scheme by its bound `size * 2` (line 391). -/
def encrypt (tree : Tree) (size : Int) : Option (List Int × Int) :=
  match plaintexts tree with
  | none => none
  | some values => some (values, size * 2)

/-- The loop of source `decrypt` (lines 442-447): `prunedCiphers[i] =
ciphers[indices[i]]`, which fails on an index out of range. -/
def prune (indices : List Nat) (ciphers : List Int) : Option (List Int) :=
  match indices with
  | [] => some []
  | i :: rest =>
    match ciphers[i]? with
    | none => none
    | some c =>
      match prune rest ciphers with
      | none => none
      | some cs => some (c :: cs)

/-- Source `decrypt` (lines 431-472): the selected ciphertexts are decrypted with
the all-ones weight vector `y`; `service` is the external `Decrypt` and `bound`
the bound held by `scheme.Params`. -/
def decrypt (service : DecryptService) (indices : List Nat) (ciphers : List Int)
    (bound : Int) : Option Int :=
  match prune indices ciphers with
  | none => none
  | some prunedCiphers => service prunedCiphers (List.replicate indices.length 1) bound

/-- The counter `tree[i].Value` (0 when the entry is missing). -/
def valueAt (tree : Tree) (i : Nat) : Int :=
  match getNode tree i with
  | some node => node.Value
  | none => 0

/-- The guard under which the "left child only" branches of `traverseBottom`
(line 122), `traverseNearest` (line 143) and `populate` (line 179) are taken: the
left child index is in bounds and the right one is not. -/
def leftOnly (i maxNodes : Nat) : Prop := ¬ (2 * i + 1 ≥ maxNodes) ∧ 2 * i + 2 ≥ maxNodes

/-- The guard `2*i+1 >= maxNodes` under which a node is treated as childless
(lines 113, 138, 174). -/
def childless (i maxNodes : Nat) : Prop := 2 * i + 1 ≥ maxNodes

instance childlessDecidable (i maxNodes : Nat) : Decidable (childless i maxNodes) := by
  unfold childless; infer_instance

/-- The value held by a Go `int` of `w` bits for the mathematical result `x`
(two's-complement wrap-around). -/
def wrapInt (w : Nat) (x : Int) : Int := (x + 2 ^ (w - 1)) % 2 ^ w - 2 ^ (w - 1)

/-- The statement `nodes := 2*leaves - 1` of `buildTree` (line 191) on a Go `int`
of `w` bits. -/
def nodesInt (w : Nat) (leaves : Int) : Int := wrapInt w (wrapInt w (2 * leaves) - 1)

/-- The right edge of the tree: the root and, repeatedly, the right child, that is
the indices 0, 2, 6, 14, ... -/
def rightEdge (i : Nat) : Prop := ∃ k : Nat, i + 2 = 2 ^ k

/-! ## The construction with binary32 rounding -/

/-- Rounding of a rational to the nearest integer, ties to the even one. -/
def roundEven (q : ℚ) : Int :=
  if q - ⌊q⌋ < 1 / 2 then ⌊q⌋
  else if 1 / 2 < q - ⌊q⌋ then ⌊q⌋ + 1
  else if ⌊q⌋ % 2 = 0 then ⌊q⌋ else ⌊q⌋ + 1

/-- The `float32` result of an arithmetic operation whose exact result is `x`:
round to nearest, ties to even, with a significand of 24 bits and exponents from
-126 up (subnormal numbers included).  Overflow to infinity is not modelled: the
function is meant for `|x| < 2^128`. -/
def roundF32 (x : ℚ) : ℚ :=
  (roundEven (x / 2 ^ (max (Int.log 2 |x|) (-126) - 23)) : ℚ)
    * 2 ^ (max (Int.log 2 |x|) (-126) - 23)

/-- Source `build` (lines 154-167) with the `float32` rounding of the subtraction,
the division and the addition of line 160. -/
def buildF32 (tree : Tree) (newRange : ℚ × ℚ) (i : Nat) (maxlen : Nat) : Option Tree :=
  if _h : i ≥ maxlen then
    some tree
  else
    match setNode tree i { Range := newRange, Value := 0 } with
    | none => none
    | some tree1 =>
      let middle := roundF32 (newRange.1 + roundF32 (roundF32 (newRange.2 - newRange.1) / 2))
      match buildF32 tree1 (newRange.1, middle) (2 * i + 1) maxlen with
      | none => none
      | some tree2 => buildF32 tree2 (middle, newRange.2) (2 * i + 2) maxlen
termination_by maxlen - i
decreasing_by all_goals omega

/-- The construction part of `buildTree` (lines 191, 195, 198-202) with the
`float32` rounding of lines 198 and 199 and of `build`. -/
def buildOverF32 (leaves : Int) (min max : ℚ) : Option Tree :=
  let nodes : Int := 2 * leaves - 1
  if nodes < 0 then
    none
  else
    let treeArray : Tree := List.replicate nodes.toNat none
    let interval := roundF32 (max - min)
    let middle := roundF32 (min + roundF32 (interval / 2))
    match setNode treeArray 0 { Range := (min, max), Value := 0 } with
    | none => none
    | some tree0 =>
      match buildF32 tree0 (min, middle) 1 nodes.toNat with
      | none => none
      | some tree1 => buildF32 tree1 (middle, max) 2 nodes.toNat

/-! ## Descriptions used in the proofs -/

/-- Subtree membership: `Desc i j` says that index `j` lies in the subtree rooted at
index `i`, the children of `k` being `2*k+1` and `2*k+2`. -/
inductive Desc (i : Nat) : Nat → Prop
  | refl : Desc i i
  | left {j : Nat} : Desc i j → Desc i (2 * j + 1)
  | right {j : Nat} : Desc i j → Desc i (2 * j + 2)

/-- The midpoint expression of `build` and `populate`. -/
def middleOf (r : ℚ × ℚ) : ℚ := r.1 + (r.2 - r.1) / 2

/-- The range that the construction gives to index `j` when the root has range
`root`: the left (odd) child takes the lower half of its parent, the right (even)
child the upper half. -/
def rangeOf (root : ℚ × ℚ) (j : Nat) : ℚ × ℚ :=
  if _h : j = 0 then root
  else
    let p := rangeOf root ((j - 1) / 2)
    if j % 2 = 1 then (p.1, middleOf p) else (middleOf p, p.2)
termination_by j
decreasing_by omega

/-- Whether the descent of `populate` for `value`, started at the root, passes
through index `j`. -/
def reaches (root : ℚ × ℚ) (value : ℚ) (j : Nat) : Bool :=
  if _h : j = 0 then true
  else
    reaches root value ((j - 1) / 2) &&
      (if j % 2 = 1 then decide (value < middleOf (rangeOf root ((j - 1) / 2)))
       else !decide (value < middleOf (rangeOf root ((j - 1) / 2))))
termination_by j
decreasing_by omega

/-- Tree description: `Shape R val n tree` says that the tree has `n` entries, none
nil, entry `j` holding range `R j` and counter `val j`. -/
def Shape (R : Nat → ℚ × ℚ) (val : Nat → Int) (n : Nat) (tree : Tree) : Prop :=
  tree.length = n ∧ ∀ j, j < n → tree[j]? = some (some { Range := R j, Value := val j })

/-- Fullness: a node count under which a left child index in bounds has its right
sibling in bounds too. -/
def Full (n : Nat) : Prop := ∀ i, 2 * i + 1 < n → 2 * i + 2 < n

/-- The counter that entry `j` holds after the values of `dataset` have been
populated: the number of values whose descent reaches `j`. -/
def hits (root : ℚ × ℚ) (dataset : List ℚ) (j : Nat) : Int :=
  ((dataset.countP (fun v => reaches root v j) : Nat) : Int)

/-! ## Index structure of the array tree -/

theorem Desc.le {i j : Nat} (h : Desc i j) : i ≤ j := by
  induction h with
  | refl => exact Nat.le_refl i
  | left _ ih => omega
  | right _ ih => omega

theorem desc_zero (j : Nat) : Desc 0 j := by
  induction j using Nat.strong_induction_on with
  | _ j ih =>
    rcases Nat.even_or_odd j with he | ho
    · obtain ⟨k, hk⟩ := he
      rcases Nat.eq_zero_or_pos k with h0 | hpos
      · have : j = 0 := by omega
        subst this
        exact Desc.refl
      · have hj : j = 2 * (k - 1) + 2 := by omega
        rw [hj]
        exact Desc.right (ih (k - 1) (by omega))
    · obtain ⟨k, hk⟩ := ho
      rw [hk]
      exact Desc.left (ih k (by omega))

theorem desc_of_left {i j : Nat} (h : Desc (2 * i + 1) j) : Desc i j := by
  induction h with
  | refl => exact Desc.left Desc.refl
  | left _ ih => exact Desc.left ih
  | right _ ih => exact Desc.right ih

theorem desc_of_right {i j : Nat} (h : Desc (2 * i + 2) j) : Desc i j := by
  induction h with
  | refl => exact Desc.right Desc.refl
  | left _ ih => exact Desc.left ih
  | right _ ih => exact Desc.right ih

theorem desc_cases {i j : Nat} (h : Desc i j) :
    j = i ∨ Desc (2 * i + 1) j ∨ Desc (2 * i + 2) j := by
  induction h with
  | refl => exact Or.inl rfl
  | @left k _ ih =>
    rcases ih with h0 | h1 | h2
    · subst h0; exact Or.inr (Or.inl Desc.refl)
    · exact Or.inr (Or.inl (Desc.left h1))
    · exact Or.inr (Or.inr (Desc.left h2))
  | @right k _ ih =>
    rcases ih with h0 | h1 | h2
    · subst h0; exact Or.inr (Or.inr Desc.refl)
    · exact Or.inr (Or.inl (Desc.right h1))
    · exact Or.inr (Or.inr (Desc.right h2))

theorem desc_parent {i j : Nat} (h : Desc i j) : j = i ∨ (0 < j ∧ Desc i ((j - 1) / 2)) := by
  cases h with
  | refl => exact Or.inl rfl
  | @left k hk =>
    refine Or.inr ⟨by omega, ?_⟩
    have : (2 * k + 1 - 1) / 2 = k := by omega
    rw [this]; exact hk
  | @right k hk =>
    refine Or.inr ⟨by omega, ?_⟩
    have : (2 * k + 2 - 1) / 2 = k := by omega
    rw [this]; exact hk

theorem desc_chain {a b j : Nat} (ha : Desc a j) (hb : Desc b j) : Desc a b ∨ Desc b a := by
  induction ha with
  | refl => exact Or.inr hb
  | @left k hk ih =>
    rcases desc_parent hb with h0 | ⟨_, h1⟩
    · subst h0; exact Or.inl (Desc.left hk)
    · have : (2 * k + 1 - 1) / 2 = k := by omega
      rw [this] at h1
      exact ih h1
  | @right k hk ih =>
    rcases desc_parent hb with h0 | ⟨_, h1⟩
    · subst h0; exact Or.inl (Desc.right hk)
    · have : (2 * k + 2 - 1) / 2 = k := by omega
      rw [this] at h1
      exact ih h1

theorem desc_disjoint {i j : Nat} (h1 : Desc (2 * i + 1) j) (h2 : Desc (2 * i + 2) j) : False := by
  rcases desc_chain h1 h2 with h | h
  · rcases desc_parent h with h0 | ⟨_, hp⟩
    · omega
    · have : (2 * i + 2 - 1) / 2 = i := by omega
      rw [this] at hp
      have := hp.le
      omega
  · have := h.le
    omega

/-! ## The ranges and counters of the built tree -/

theorem rangeOf_zero (root : ℚ × ℚ) : rangeOf root 0 = root := by
  rw [rangeOf]; simp

theorem rangeOf_left (root : ℚ × ℚ) (i : Nat) :
    rangeOf root (2 * i + 1) = ((rangeOf root i).1, middleOf (rangeOf root i)) := by
  rw [rangeOf]
  have h1 : (2 * i + 1 - 1) / 2 = i := by omega
  have h2 : (2 * i + 1) % 2 = 1 := by omega
  simp [h1, h2]

theorem rangeOf_right (root : ℚ × ℚ) (i : Nat) :
    rangeOf root (2 * i + 2) = (middleOf (rangeOf root i), (rangeOf root i).2) := by
  rw [rangeOf]
  have h1 : (2 * i + 1) / 2 = i := by omega
  have h2 : (2 * i + 2) % 2 = 0 := by omega
  simp [h1, h2]

theorem reaches_zero (root : ℚ × ℚ) (v : ℚ) : reaches root v 0 = true := by
  rw [reaches]; simp

theorem reaches_left (root : ℚ × ℚ) (v : ℚ) (i : Nat) :
    reaches root v (2 * i + 1) =
      (reaches root v i && decide (v < middleOf (rangeOf root i))) := by
  rw [reaches]
  have h1 : (2 * i + 1 - 1) / 2 = i := by omega
  have h2 : (2 * i + 1) % 2 = 1 := by omega
  simp [h1, h2]

theorem reaches_right (root : ℚ × ℚ) (v : ℚ) (i : Nat) :
    reaches root v (2 * i + 2) =
      (reaches root v i && !decide (v < middleOf (rangeOf root i))) := by
  rw [reaches]
  have h1 : (2 * i + 1) / 2 = i := by omega
  have h2 : (2 * i + 2) % 2 = 0 := by omega
  simp [h1, h2]

theorem reaches_anc {root : ℚ × ℚ} {v : ℚ} {c j : Nat} (h : Desc c j)
    (hj : reaches root v j = true) : reaches root v c = true := by
  induction h with
  | refl => exact hj
  | left _ ih =>
    rw [reaches_left] at hj
    simp only [Bool.and_eq_true] at hj
    exact ih hj.1
  | right _ ih =>
    rw [reaches_right] at hj
    simp only [Bool.and_eq_true] at hj
    exact ih hj.1

theorem shape_getNode {R : Nat → ℚ × ℚ} {val : Nat → Int} {n : Nat} {tree : Tree}
    (hs : Shape R val n tree) {j : Nat} (hj : j < n) :
    getNode tree j = some { Range := R j, Value := val j } := by
  unfold getNode
  rw [hs.2 j hj]

/-- The effect of `build` on a tree of `maxlen` entries: the entries of the
subtree of `i` receive their range with counter 0, all others are kept. -/
theorem build_spec (root : ℚ × ℚ) (maxlen : Nat) :
    ∀ (k i : Nat) (tree : Tree), maxlen - i = k → tree.length = maxlen →
      ∃ tree', build tree (rangeOf root i) i maxlen = some tree' ∧
        tree'.length = maxlen ∧
        (∀ j, j < maxlen → Desc i j →
          tree'[j]? = some (some { Range := rangeOf root j, Value := 0 })) ∧
        (∀ j, ¬ Desc i j → tree'[j]? = tree[j]?) := by
  intro k
  induction k using Nat.strong_induction_on with
  | _ k ih =>
    intro i tree hk hlen
    rw [build]
    by_cases hi : i ≥ maxlen
    · simp only [hi, ↓reduceDIte]
      refine ⟨tree, rfl, hlen, ?_, fun _ _ => rfl⟩
      intro j hj hd
      have := hd.le
      omega
    · simp only [hi, ↓reduceDIte]
      have hil : i < tree.length := by omega
      simp only [setNode, hil, ↓reduceIte]
      have hl1 : (tree.set i (some { Range := rangeOf root i, Value := 0 })).length = maxlen := by
        simp [hlen]
      obtain ⟨t2, h2, hl2, h2in, h2out⟩ :=
        ih (maxlen - (2 * i + 1)) (by omega) (2 * i + 1) _ rfl hl1
      rw [rangeOf_left] at h2
      have hm : (rangeOf root i).1 + ((rangeOf root i).2 - (rangeOf root i).1) / 2
          = middleOf (rangeOf root i) := rfl
      simp only [hm, h2]
      obtain ⟨t3, h3, hl3, h3in, h3out⟩ :=
        ih (maxlen - (2 * i + 2)) (by omega) (2 * i + 2) t2 rfl hl2
      rw [rangeOf_right] at h3
      refine ⟨t3, h3, hl3, ?_, ?_⟩
      · intro j hj hd
        by_cases hr : Desc (2 * i + 2) j
        · exact h3in j hj hr
        · rw [h3out j hr]
          by_cases hl : Desc (2 * i + 1) j
          · exact h2in j hj hl
          · rw [h2out j hl]
            rcases desc_cases hd with h0 | h1 | h1
            · subst h0
              simp [hil]
            · exact absurd h1 hl
            · exact absurd h1 hr
      · intro j hd
        have hr : ¬ Desc (2 * i + 2) j := fun h => hd (desc_of_right h)
        have hl : ¬ Desc (2 * i + 1) j := fun h => hd (desc_of_left h)
        have hne : i ≠ j := fun h => hd (h ▸ Desc.refl)
        rw [h3out j hr, h2out j hl]
        simp [List.getElem?_set, hne]

theorem full_nodes (leaves : Int) (hL : 1 ≤ leaves) : Full (2 * leaves - 1).toNat := by
  intro i hi
  omega

/-- The tree returned by `buildOver`: `2*leaves - 1` entries, entry `j` holding
`rangeOf (min, max) j` and counter 0. -/
theorem buildOver_spec (leaves : Int) (hL : 1 ≤ leaves) (min max : ℚ) :
    ∃ tree, buildOver leaves min max = some tree ∧
      Shape (rangeOf (min, max)) (fun _ => 0) (2 * leaves - 1).toNat tree := by
  have hn : ¬ (2 * leaves - 1 < 0) := by omega
  have hpos : 0 < (2 * leaves - 1).toNat := by omega
  unfold buildOver
  simp only [hn, ↓reduceIte, setNode, List.length_replicate, hpos]
  set n := (2 * leaves - 1).toNat with hnn
  set t0 : Tree := (List.replicate n none).set 0 (some { Range := (min, max), Value := 0 }) with ht0
  have hl0 : t0.length = n := by simp [ht0]
  have hm : min + (max - min) / 2 = middleOf (rangeOf (min, max) 0) := by
    rw [rangeOf_zero]; rfl
  obtain ⟨t1, h1, hl1, h1in, h1out⟩ := build_spec (min, max) n (n - 1) 1 t0 rfl hl0
  have e1 : rangeOf (min, max) 1 = (min, middleOf (rangeOf (min, max) 0)) := by
    have := rangeOf_left (min, max) 0
    rw [rangeOf_zero] at this ⊢
    simpa using this
  rw [e1] at h1
  obtain ⟨t2, h2, hl2, h2in, h2out⟩ := build_spec (min, max) n (n - 2) 2 t1 rfl hl1
  have e2 : rangeOf (min, max) 2 = (middleOf (rangeOf (min, max) 0), max) := by
    have := rangeOf_right (min, max) 0
    rw [rangeOf_zero] at this ⊢
    simpa using this
  rw [e2] at h2
  simp only [hm, h1, h2]
  refine ⟨t2, rfl, hl2, ?_⟩
  intro j hj
  by_cases hr : Desc 2 j
  · exact h2in j hj hr
  · rw [h2out j hr]
    by_cases hl : Desc 1 j
    · exact h1in j hj hl
    · rw [h1out j hl]
      rcases desc_cases (desc_zero j) with h0 | h | h
      · subst h0
        simp [ht0, hpos, rangeOf_zero]
      · exact absurd h hl
      · exact absurd h hr

/-- One call of `populate` at an index reached by `value`: the counters of the
entries below `i` that the descent reaches grow by one, nothing else changes. -/
theorem populate_spec (root : ℚ × ℚ) (v : ℚ) (n : Nat) (hfull : Full n) :
    ∀ (k i : Nat) (val : Nat → Int) (tree : Tree), n - i = k → i < n →
      Shape (rangeOf root) val n tree → reaches root v i = true →
      ∃ tree' val', populate tree i v n = some tree' ∧ Shape (rangeOf root) val' n tree' ∧
        ∀ j, j < n →
          (Desc i j → reaches root v j = true → val' j = val j + 1) ∧
          (¬ (Desc i j ∧ reaches root v j = true) → val' j = val j) := by
  intro k
  induction k using Nat.strong_induction_on with
  | _ k ih =>
    intro i val tree hk hi hs hreach
    rw [populate]
    rw [shape_getNode hs hi]
    simp only
    have hm : (rangeOf root i).1 + ((rangeOf root i).2 - (rangeOf root i).1) / 2
        = middleOf (rangeOf root i) := rfl
    rw [hm]
    have hs1 : Shape (rangeOf root) (Function.update val i (val i + 1)) n
        (tree.set i (some { Range := rangeOf root i, Value := val i + 1 })) := by
      refine ⟨by simp [hs.1], ?_⟩
      intro j hj
      by_cases hji : i = j
      · subst hji
        simp [hs.1, hi]
      · have hji2 : j ≠ i := fun h => hji h.symm
        simp [List.getElem?_set, hji, Function.update_noteq hji2, hs.2 j hj]
    by_cases hleaf : 2 * i + 1 ≥ n
    · simp only [hleaf, ↓reduceDIte]
      refine ⟨_, _, rfl, hs1, ?_⟩
      intro j hj
      constructor
      · intro hd _
        rcases desc_cases hd with h0 | h | h
        · subst h0; simp
        · have := h.le; omega
        · have := h.le; omega
      · intro hnot
        have hne : j ≠ i := by
          intro h; subst h; exact hnot ⟨Desc.refl, hreach⟩
        simp [Function.update_noteq hne]
    · simp only [hleaf, ↓reduceDIte]
      have hl : 2 * i + 1 < n := by omega
      have hr : 2 * i + 2 < n := hfull i hl
      by_cases hlt : v < middleOf (rangeOf root i)
      · simp only [hlt, ↓reduceIte]
        have hreachL : reaches root v (2 * i + 1) = true := by
          rw [reaches_left]; simp [hreach, hlt]
        obtain ⟨t', val', hp, hs', hv⟩ :=
          ih (n - (2 * i + 1)) (by omega) (2 * i + 1) _ _ rfl hl hs1 hreachL
        refine ⟨t', val', hp, hs', ?_⟩
        intro j hj
        constructor
        · intro hd hrj
          rcases desc_cases hd with h0 | h | h
          · subst h0
            have hnd : ¬ (Desc (2 * j + 1) j ∧ reaches root v j = true) := by
              intro hh; have := hh.1.le; omega
            rw [(hv j hj).2 hnd]; simp
          · have hne : j ≠ i := by have := h.le; omega
            rw [(hv j hj).1 h hrj, Function.update_noteq hne]
          · exfalso
            have := reaches_anc h hrj
            rw [reaches_right] at this
            simp [hlt] at this
        · intro hnot
          have hne : j ≠ i := by
            intro h; subst h; exact hnot ⟨Desc.refl, hreach⟩
          have hnd : ¬ (Desc (2 * i + 1) j ∧ reaches root v j = true) :=
            fun hh => hnot ⟨desc_of_left hh.1, hh.2⟩
          rw [(hv j hj).2 hnd, Function.update_noteq hne]
      · simp only [hlt, ↓reduceIte]
        have hr' : ¬ (2 * i + 2 ≥ n) := by omega
        simp only [hr', ↓reduceIte]
        have hreachR : reaches root v (2 * i + 2) = true := by
          rw [reaches_right]; simp [hreach, hlt]
        obtain ⟨t', val', hp, hs', hv⟩ :=
          ih (n - (2 * i + 2)) (by omega) (2 * i + 2) _ _ rfl hr hs1 hreachR
        refine ⟨t', val', hp, hs', ?_⟩
        intro j hj
        constructor
        · intro hd hrj
          rcases desc_cases hd with h0 | h | h
          · subst h0
            have hnd : ¬ (Desc (2 * j + 2) j ∧ reaches root v j = true) := by
              intro hh; have := hh.1.le; omega
            rw [(hv j hj).2 hnd]; simp
          · exfalso
            have := reaches_anc h hrj
            rw [reaches_left] at this
            simp [hlt] at this
          · have hne : j ≠ i := by have := h.le; omega
            rw [(hv j hj).1 h hrj, Function.update_noteq hne]
        · intro hnot
          have hne : j ≠ i := by
            intro h; subst h; exact hnot ⟨Desc.refl, hreach⟩
          have hnd : ¬ (Desc (2 * i + 2) j ∧ reaches root v j = true) :=
            fun hh => hnot ⟨desc_of_right hh.1, hh.2⟩
          rw [(hv j hj).2 hnd, Function.update_noteq hne]

theorem populateAll_spec (root : ℚ × ℚ) (n : Nat) (hfull : Full n) (hn : 0 < n) :
    ∀ (dataset : List ℚ) (val : Nat → Int) (tree : Tree),
      Shape (rangeOf root) val n tree →
      ∃ tree', populateAll tree dataset n = some tree' ∧
        Shape (rangeOf root) (fun j => val j + hits root dataset j) n tree' := by
  intro dataset
  induction dataset with
  | nil =>
    intro val tree hs
    refine ⟨tree, rfl, ?_⟩
    simpa [hits] using hs
  | cons v rest ih =>
    intro val tree hs
    obtain ⟨t1, val1, hp, hs1, hv⟩ :=
      populate_spec root v n hfull (n - 0) 0 val tree rfl hn hs (reaches_zero root v)
    obtain ⟨t2, hp2, hs2⟩ := ih val1 t1 hs1
    refine ⟨t2, by simp [populateAll, hp, hp2], hs2.1, ?_⟩
    intro j hj
    rw [hs2.2 j hj]
    have hval : val1 j = val j + (if reaches root v j = true then 1 else 0) := by
      by_cases hr : reaches root v j = true
      · rw [(hv j hj).1 (desc_zero j) hr]; simp [hr]
      · rw [(hv j hj).2 (fun hh => hr hh.2)]; simp [hr]
    simp only [hits, List.countP_cons, hval]
    congr 3
    push_cast
    split_ifs <;> ring

/-! ## Counters and ranges (C1) -/

theorem findMinMax_fold (dataset : List ℚ) :
    ∀ acc : ℚ × ℚ,
      (dataset.foldl
        (fun (acc : ℚ × ℚ) (value : ℚ) =>
          ((if value < acc.1 then value else acc.1), (if value > acc.2 then value else acc.2)))
        acc).1 ≤ acc.1 ∧
      acc.2 ≤ (dataset.foldl
        (fun (acc : ℚ × ℚ) (value : ℚ) =>
          ((if value < acc.1 then value else acc.1), (if value > acc.2 then value else acc.2)))
        acc).2 ∧
      ∀ v ∈ dataset,
        (dataset.foldl
          (fun (acc : ℚ × ℚ) (value : ℚ) =>
            ((if value < acc.1 then value else acc.1), (if value > acc.2 then value else acc.2)))
          acc).1 ≤ v ∧
        v ≤ (dataset.foldl
          (fun (acc : ℚ × ℚ) (value : ℚ) =>
            ((if value < acc.1 then value else acc.1), (if value > acc.2 then value else acc.2)))
          acc).2 := by
  induction dataset with
  | nil => intro acc; simp
  | cons d rest ih =>
    intro acc
    simp only [List.foldl_cons]
    obtain ⟨h1, h2, h3⟩ :=
      ih ((if d < acc.1 then d else acc.1), (if d > acc.2 then d else acc.2))
    have ha : (if d < acc.1 then d else acc.1) ≤ acc.1 ∧ (if d < acc.1 then d else acc.1) ≤ d := by
      split_ifs with h
      · exact ⟨le_of_lt h, le_refl _⟩
      · exact ⟨le_refl _, not_lt.mp h⟩
    have hb : acc.2 ≤ (if d > acc.2 then d else acc.2) ∧ d ≤ (if d > acc.2 then d else acc.2) := by
      split_ifs with h
      · exact ⟨le_of_lt h, le_refl _⟩
      · exact ⟨le_refl _, not_lt.mp h⟩
    simp only at h1 h2
    refine ⟨le_trans h1 ha.1, le_trans hb.1 h2, ?_⟩
    intro v hv
    rcases List.mem_cons.mp hv with h | h
    · subst h
      exact ⟨le_trans h1 ha.2, le_trans hb.2 h2⟩
    · exact h3 v h

/-- The pair returned by `findMinMax` bounds every value of the dataset. -/
theorem findMinMax_bounds {dataset : List ℚ} {mn mx : ℚ}
    (h : findMinMax dataset = some (mn, mx)) : ∀ v ∈ dataset, mn ≤ v ∧ v ≤ mx := by
  cases dataset with
  | nil => simp [findMinMax] at h
  | cons d rest =>
    simp only [findMinMax, Option.some.injEq] at h
    have := (findMinMax_fold (d :: rest) (d, d)).2.2
    rw [h] at this
    exact this

theorem findMinMax_some {dataset : List ℚ} (h : dataset ≠ []) :
    ∃ mn mx, findMinMax dataset = some (mn, mx) := by
  cases dataset with
  | nil => exact absurd rfl h
  | cons d rest => exact ⟨_, _, rfl⟩

theorem middleOf_between_le {r : ℚ × ℚ} (h : r.1 ≤ r.2) : r.1 ≤ middleOf r ∧ middleOf r ≤ r.2 := by
  unfold middleOf
  constructor <;> linarith

theorem rightEdge_zero : rightEdge 0 := ⟨1, rfl⟩

theorem not_rightEdge_left (k : Nat) : ¬ rightEdge (2 * k + 1) := by
  rintro ⟨m, hm⟩
  cases m with
  | zero => simp at hm
  | succ m =>
    rw [pow_succ] at hm
    omega

theorem rightEdge_right (k : Nat) : rightEdge (2 * k + 2) ↔ rightEdge k := by
  constructor
  · rintro ⟨m, hm⟩
    cases m with
    | zero => simp at hm
    | succ m =>
      rw [pow_succ] at hm
      exact ⟨m, by omega⟩
  · rintro ⟨m, hm⟩
    exact ⟨m + 1, by rw [pow_succ]; omega⟩

/-- A value of the domain reaches index `j` exactly when it lies in the range of
`j`, closed-open off the right edge and closed on it; on the right edge the range
ends at the maximum.  Of the midpoint only `lo ≤ mid ≤ hi` is used. -/
theorem reaches_edge {mn mx v : ℚ} (hle : mn ≤ mx) (hv1 : mn ≤ v) (j : Nat) :
    (rangeOf (mn, mx) j).1 ≤ (rangeOf (mn, mx) j).2 ∧
    (rightEdge j → (rangeOf (mn, mx) j).2 = mx) ∧
    (reaches (mn, mx) v j = true ↔
      (rangeOf (mn, mx) j).1 ≤ v ∧ (v < (rangeOf (mn, mx) j).2 ∨ rightEdge j)) := by
  induction desc_zero j with
  | refl =>
    rw [rangeOf_zero, reaches_zero]
    exact ⟨hle, fun _ => rfl, by simp [hv1, rightEdge_zero]⟩
  | @left k _ ih =>
    obtain ⟨h1, _, h3⟩ := ih
    obtain ⟨m1, m2⟩ := middleOf_between_le h1
    rw [rangeOf_left, reaches_left]
    refine ⟨m1, fun he => absurd he (not_rightEdge_left k), ?_⟩
    simp only [Bool.and_eq_true, decide_eq_true_eq, h3]
    constructor
    · rintro ⟨⟨ha, _⟩, hb⟩
      exact ⟨ha, Or.inl hb⟩
    · rintro ⟨ha, hb⟩
      rcases hb with hb | hb
      · exact ⟨⟨ha, Or.inl (lt_of_lt_of_le hb m2)⟩, hb⟩
      · exact absurd hb (not_rightEdge_left k)
  | @right k _ ih =>
    obtain ⟨h1, h2, h3⟩ := ih
    obtain ⟨m1, m2⟩ := middleOf_between_le h1
    rw [rangeOf_right, reaches_right]
    refine ⟨m2, fun he => h2 ((rightEdge_right k).mp he), ?_⟩
    simp only [Bool.and_eq_true, Bool.not_eq_true', decide_eq_false_iff_not, not_lt, h3,
      rightEdge_right]
    constructor
    · rintro ⟨⟨_, hb⟩, hc⟩
      exact ⟨hc, hb⟩
    · rintro ⟨ha, hb⟩
      exact ⟨⟨le_trans m1 ha, hb⟩, ha⟩

theorem buildTree_spec (leaves : Int) (hL : 1 ≤ leaves) (dataset : List ℚ) (mn mx : ℚ)
    (hmm : findMinMax dataset = some (mn, mx)) :
    ∃ tree, buildTree leaves dataset = some tree ∧
      Shape (rangeOf (mn, mx)) (hits (mn, mx) dataset) (2 * leaves - 1).toNat tree := by
  obtain ⟨t0, h0, hs0⟩ := buildOver_spec leaves hL mn mx
  obtain ⟨t1, h1, hs1⟩ :=
    populateAll_spec (mn, mx) _ (full_nodes leaves hL) (by omega) dataset _ t0 hs0
  have hn : ¬ (2 * leaves - 1 < 0) := by omega
  refine ⟨t1, ?_, ?_⟩
  · unfold buildTree
    simp only [hn, ↓reduceIte, hmm, h0, h1]
  · simpa using hs1

/-- C1 (amended): after `buildTree` over a dataset with `min < max`, a node off the
right edge of the tree counts the dataset values of its closed-open range
`[lo, hi)`; a node on the right edge (the root and, repeatedly, the right child)
has `hi = max` and counts the dataset values of its closed range `[lo, hi]`. -/
theorem populate_counts_range (leaves : Int) (hL : 1 ≤ leaves) (dataset : List ℚ)
    (mn mx : ℚ) (hmm : findMinMax dataset = some (mn, mx)) (hlt : mn < mx) :
    ∃ tree, buildTree leaves dataset = some tree ∧
      (tree.length : Int) = 2 * leaves - 1 ∧
      ∀ i, i < tree.length → ∃ node, getNode tree i = some node ∧
        (¬ rightEdge i → node.Value =
          dataset.countP (fun v => decide (node.Range.1 ≤ v ∧ v < node.Range.2))) ∧
        (rightEdge i → node.Range.2 = mx ∧ node.Value =
          dataset.countP (fun v => decide (node.Range.1 ≤ v ∧ v ≤ node.Range.2))) := by
  obtain ⟨tree, hb, hs⟩ := buildTree_spec leaves hL dataset mn mx hmm
  refine ⟨tree, hb, ?_, ?_⟩
  · rw [hs.1]; omega
  · intro i hi
    rw [hs.1] at hi
    refine ⟨_, shape_getNode hs hi, ?_⟩
    have hbd := findMinMax_bounds hmm
    have hle : mn ≤ mx := le_of_lt hlt
    constructor
    · intro hne
      simp only [hits, Nat.cast_inj]
      apply List.countP_congr
      intro v hv
      have := (reaches_edge hle (hbd v hv).1 i).2.2
      simp only [this, decide_eq_true_eq]
      constructor
      · rintro ⟨ha, hb | hb⟩
        · exact ⟨ha, hb⟩
        · exact absurd hb hne
      · rintro ⟨ha, hb⟩
        exact ⟨ha, Or.inl hb⟩
    · intro he
      have hhi := (reaches_edge hle (le_refl mn) i).2.1 he
      refine ⟨hhi, ?_⟩
      simp only [hits, Nat.cast_inj]
      apply List.countP_congr
      intro v hv
      have := (reaches_edge hle (hbd v hv).1 i).2.2
      simp only [this, decide_eq_true_eq]
      constructor
      · rintro ⟨ha, _⟩
        exact ⟨ha, by rw [hhi]; exact (hbd v hv).2⟩
      · rintro ⟨ha, _⟩
        exact ⟨ha, Or.inr he⟩

theorem populate_counts_range_witness :
    ∃ tree, buildTree 2 [0, 10] = some tree ∧
      (tree.length : Int) = 2 * 2 - 1 ∧
      ∀ i, i < tree.length → ∃ node, getNode tree i = some node ∧
        (¬ rightEdge i → node.Value =
          [(0 : ℚ), 10].countP (fun v => decide (node.Range.1 ≤ v ∧ v < node.Range.2))) ∧
        (rightEdge i → node.Range.2 = 10 ∧ node.Value =
          [(0 : ℚ), 10].countP (fun v => decide (node.Range.1 ≤ v ∧ v ≤ node.Range.2))) :=
  populate_counts_range 2 (by decide) [0, 10] 0 10 (by simp [findMinMax]) (by norm_num)

/-- C1 (counterexample): with one leaf and the dataset `[0, 10]` the root holds 2,
while only one value lies in its closed-open range `[0, 10)`. -/
theorem populate_counts_range_counterexample :
    findMinMax [0, 10] = some (0, 10) ∧
    ∃ tree node, buildTree 1 [0, 10] = some tree ∧ getNode tree 0 = some node ∧
      node.Range = (0, 10) ∧ node.Value = 2 ∧
      [(0 : ℚ), 10].countP (fun v => decide (node.Range.1 ≤ v ∧ v < node.Range.2)) = 1 ∧
      node.Value ≠
        [(0 : ℚ), 10].countP (fun v => decide (node.Range.1 ≤ v ∧ v < node.Range.2)) := by
  refine ⟨by simp [findMinMax], [some ⟨(0, 10), 2⟩], ⟨(0, 10), 2⟩, ?_, ?_, rfl, rfl, ?_, ?_⟩
  · simp [buildTree, findMinMax, buildOver, setNode, build, populateAll, populate, getNode]
  · simp [getNode]
  · simp [List.countP_cons]
  · simp [List.countP_cons]

/-! ## Sums of counters (C2) -/

theorem hits_zero (root : ℚ × ℚ) (dataset : List ℚ) :
    hits root dataset 0 = dataset.length := by
  simp [hits, reaches_zero]

theorem hits_nonneg (root : ℚ × ℚ) (dataset : List ℚ) (j : Nat) : 0 ≤ hits root dataset j := by
  simp [hits]

theorem countP_split (p c : ℚ → Bool) (l : List ℚ) :
    l.countP p = l.countP (fun v => p v && c v) + l.countP (fun v => p v && !c v) := by
  induction l with
  | nil => simp
  | cons v rest ih =>
    simp only [List.countP_cons, ih]
    cases p v <;> cases c v <;> simp <;> omega

theorem hits_children (root : ℚ × ℚ) (dataset : List ℚ) (i : Nat) :
    hits root dataset i = hits root dataset (2 * i + 1) + hits root dataset (2 * i + 2) := by
  unfold hits
  simp only [reaches_left, reaches_right]
  exact_mod_cast countP_split (fun v => reaches root v i)
    (fun v => decide (v < middleOf (rangeOf root i))) dataset

theorem sum_children (f : Nat → Int) (m : Nat) :
    ∑ i in Finset.range m, (f (2 * i + 1) + f (2 * i + 2)) =
      ∑ j in Finset.range (2 * m), f (j + 1) := by
  induction m with
  | zero => simp
  | succ m ih =>
    have h2 : 2 * (m + 1) = 2 * m + 1 + 1 := by ring
    rw [Finset.sum_range_succ, ih, h2, Finset.sum_range_succ, Finset.sum_range_succ]
    ring

/-- In a tree of `2*m+1` counters where every inner counter is the sum of its two
children, the counters of all nodes add up to the root counter plus the inner
counters. -/
theorem sum_all (f : Nat → Int) (m : Nat)
    (h : ∀ i, i < m → f i = f (2 * i + 1) + f (2 * i + 2)) :
    ∑ i in Finset.range (2 * m + 1), f i = f 0 + ∑ i in Finset.range m, f i := by
  rw [Finset.sum_range_succ', ← sum_children, add_comm]
  congr 1
  exact (Finset.sum_congr rfl (fun i hi => h i (Finset.mem_range.mp hi))).symm

/-- Under the same hypothesis the counters of the childless nodes add up to the
root counter. -/
theorem sum_leaves (f : Nat → Int) (m : Nat)
    (h : ∀ i, i < m → f i = f (2 * i + 1) + f (2 * i + 2)) :
    ∑ i in Finset.range (2 * m + 1), (if 2 * i + 1 ≥ 2 * m + 1 then f i else 0) = f 0 := by
  have hall := sum_all f m h
  have e : 2 * m + 1 = m + (m + 1) := by ring
  have h1 : ∑ i in Finset.range (m + (m + 1)), (if 2 * i + 1 ≥ 2 * m + 1 then f i else 0)
      = ∑ i in Finset.range (m + 1), f (m + i) := by
    rw [Finset.sum_range_add]
    have z : ∑ i in Finset.range m, (if 2 * i + 1 ≥ 2 * m + 1 then f i else 0) = 0 := by
      apply Finset.sum_eq_zero
      intro i hi
      have := Finset.mem_range.mp hi
      have hn : ¬ (2 * i + 1 ≥ 2 * m + 1) := by omega
      simp [hn]
    rw [z, zero_add]
    apply Finset.sum_congr rfl
    intro i _
    have hp : 2 * (m + i) + 1 ≥ 2 * m + 1 := by omega
    simp [hp]
  have h2 : ∑ i in Finset.range (m + (m + 1)), f i
      = ∑ i in Finset.range m, f i + ∑ i in Finset.range (m + 1), f (m + i) :=
    Finset.sum_range_add f m (m + 1)
  have er : Finset.range (2 * m + 1) = Finset.range (m + (m + 1)) := by rw [e]
  rw [er] at hall ⊢
  rw [h1]
  linarith

theorem shape_valueAt {R : Nat → ℚ × ℚ} {val : Nat → Int} {n : Nat} {tree : Tree}
    (hs : Shape R val n tree) {j : Nat} (hj : j < n) : valueAt tree j = val j := by
  unfold valueAt
  rw [shape_getNode hs hj]

/-- The populated tree over an arbitrary domain, as `buildTree` computes it. -/
theorem populated_spec (leaves : Int) (hL : 1 ≤ leaves) (mn mx : ℚ) (dataset : List ℚ) :
    ∃ tree0 tree, buildOver leaves mn mx = some tree0 ∧
      populateAll tree0 dataset (2 * leaves - 1).toNat = some tree ∧
      (findMinMax dataset = some (mn, mx) → buildTree leaves dataset = some tree) ∧
      Shape (rangeOf (mn, mx)) (hits (mn, mx) dataset) (2 * leaves - 1).toNat tree := by
  obtain ⟨t0, h0, hs0⟩ := buildOver_spec leaves hL mn mx
  obtain ⟨t1, h1, hs1⟩ :=
    populateAll_spec (mn, mx) _ (full_nodes leaves hL) (by omega) dataset _ t0 hs0
  have hn : ¬ (2 * leaves - 1 < 0) := by omega
  refine ⟨t0, t1, h0, h1, ?_, by simpa using hs1⟩
  intro hmm
  unfold buildTree
  simp only [hn, ↓reduceIte, hmm, h0, h1]

/-- C2: in the built and populated tree (any domain, any dataset) the counters of
the childless nodes add up to the dataset size, the root counter is the dataset
size, and every node with children has both children and holds the sum of their
two counters. -/
theorem counts_add_up (leaves : Int) (hL : 1 ≤ leaves) (mn mx : ℚ) (dataset : List ℚ) :
    ∃ tree0 tree, buildOver leaves mn mx = some tree0 ∧
      populateAll tree0 dataset (2 * leaves - 1).toNat = some tree ∧
      (findMinMax dataset = some (mn, mx) → buildTree leaves dataset = some tree) ∧
      (tree.length : Int) = 2 * leaves - 1 ∧
      (∀ i, i < tree.length → ∃ node, getNode tree i = some node) ∧
      (∑ i in Finset.range tree.length,
        (if 2 * i + 1 ≥ tree.length then valueAt tree i else 0)) = dataset.length ∧
      valueAt tree 0 = dataset.length ∧
      ∀ i, 2 * i + 1 < tree.length →
        2 * i + 2 < tree.length ∧
        valueAt tree i = valueAt tree (2 * i + 1) + valueAt tree (2 * i + 2) := by
  obtain ⟨t0, tree, h0, h1, hbt, hs⟩ := populated_spec leaves hL mn mx dataset
  have hfull := full_nodes leaves hL
  have hlen := hs.1
  have hval : ∀ j, j < tree.length → valueAt tree j = hits (mn, mx) dataset j := by
    intro j hj
    exact shape_valueAt hs (by omega)
  refine ⟨t0, tree, h0, h1, hbt, by omega, ?_, ?_, ?_, ?_⟩
  · intro i hi
    exact ⟨_, shape_getNode hs (by omega)⟩
  · have hm : tree.length = 2 * (leaves - 1).toNat + 1 := by omega
    have hsum := sum_leaves (hits (mn, mx) dataset) (leaves - 1).toNat
      (fun i _ => hits_children (mn, mx) dataset i)
    rw [hits_zero] at hsum
    rw [← hsum, hm]
    apply Finset.sum_congr rfl
    intro i hi
    have hi' := Finset.mem_range.mp hi
    rw [hval i (by omega)]
  · rw [hval 0 (by omega), hits_zero]
  · intro i hi
    have h2 : 2 * i + 2 < tree.length := by
      have := hfull i (by omega)
      omega
    refine ⟨h2, ?_⟩
    rw [hval i (by omega), hval _ hi, hval _ h2]
    exact hits_children (mn, mx) dataset i

theorem counts_add_up_witness :
    ∃ tree0 tree, buildOver 4 0 10 = some tree0 ∧
      populateAll tree0 [1, 2, 3, 6, 7, 8, 9] (2 * (4 : Int) - 1).toNat = some tree ∧
      (findMinMax [1, 2, 3, 6, 7, 8, 9] = some (0, 10) →
        buildTree 4 [1, 2, 3, 6, 7, 8, 9] = some tree) ∧
      (tree.length : Int) = 2 * 4 - 1 ∧
      (∀ i, i < tree.length → ∃ node, getNode tree i = some node) ∧
      (∑ i in Finset.range tree.length,
        (if 2 * i + 1 ≥ tree.length then valueAt tree i else 0))
          = ([1, 2, 3, 6, 7, 8, 9] : List ℚ).length ∧
      valueAt tree 0 = ([1, 2, 3, 6, 7, 8, 9] : List ℚ).length ∧
      ∀ i, 2 * i + 1 < tree.length →
        2 * i + 2 < tree.length ∧
        valueAt tree i = valueAt tree (2 * i + 1) + valueAt tree (2 * i + 2) :=
  counts_add_up 4 (by decide) 0 10 [1, 2, 3, 6, 7, 8, 9]

/-! ## Decrypting all nodes (C6) -/

theorem plaintexts_spec :
    ∀ (tree : Tree) (R : Nat → ℚ × ℚ) (val : Nat → Int),
      (∀ j, j < tree.length → tree[j]? = some (some { Range := R j, Value := val j })) →
      plaintexts tree = some ((List.range tree.length).map val) := by
  intro tree
  induction tree with
  | nil => intro R val _; simp [plaintexts]
  | cons p rest ih =>
    intro R val h
    have h0 := h 0 (by simp)
    simp only [List.getElem?_cons_zero, Option.some.injEq] at h0
    have hrest := ih (fun j => R (j + 1)) (fun j => val (j + 1)) (by
      intro j hj
      have := h (j + 1) (by simpa using hj)
      simpa using this)
    simp only [plaintexts, h0, hrest, List.length_cons, List.range_succ_eq_map, List.map_cons,
      List.map_map]
    rfl

theorem prune_spec (val : Nat → Int) (n : Nat) :
    ∀ indices : List Nat, (∀ i ∈ indices, i < n) →
      prune indices ((List.range n).map val) = some (indices.map val) := by
  intro indices
  induction indices with
  | nil => intro _; simp [prune]
  | cons i rest ih =>
    intro h
    have hi : i < n := h i (by simp)
    have hrest := ih (fun j hj => h j (by simp [hj]))
    have hget : ((List.range n).map val)[i]? = some (val i) := by
      simp [List.getElem?_map, List.getElem?_range, hi]
    simp [prune, hget, hrest]

theorem innerProduct_ones (xs : List Int) :
    innerProduct xs (List.replicate xs.length 1) = xs.sum := by
  induction xs with
  | nil => simp [innerProduct]
  | cons x rest ih => simp [innerProduct, List.replicate_succ, ih]

theorem boundedService_exact : ExactBelowBound boundedService := by
  intro xs ys bound _ h0 h1
  unfold boundedService
  have : |innerProduct xs ys| ≤ bound := by
    rw [abs_of_nonneg h0]; exact le_of_lt h1
  simp [this]

theorem list_sum_range (f : Nat → Int) (n : Nat) :
    ((List.range n).map f).sum = ∑ i in Finset.range n, f i := by
  induction n with
  | zero => simp
  | succ n ih => rw [List.sum_range_succ, ih, Finset.sum_range_succ]

/-- What `decrypt` hands to the service for the full index set: the list of all
counters and as many ones. -/
theorem decrypt_all_eq (service : DecryptService) (val : Nat → Int) (n : Nat) (bound : Int) :
    decrypt service (List.range n) ((List.range n).map val) bound =
      service ((List.range n).map val) (List.replicate ((List.range n).map val).length 1)
        bound := by
  unfold decrypt
  rw [prune_spec val n (List.range n) (fun i hi => List.mem_range.mp hi)]
  simp

/-- C6 (amended): the sum `S` of the counters of all nodes of the populated tree is
at least the dataset size, equals it exactly when there is one leaf or the dataset
is empty, and is at least the bound `2 * size` of `encrypt` when there are two or
more leaves.  With a service that is exact below its bound, decrypting all indices
returns `S` whenever `S` is below the bound; for one leaf and a non-empty dataset
it returns the dataset size. -/
theorem decrypt_all_total (service : DecryptService) (hsvc : ExactBelowBound service)
    (leaves : Int) (hL : 1 ≤ leaves) (mn mx : ℚ) (dataset : List ℚ) :
    ∃ tree0 tree ciphers bound, buildOver leaves mn mx = some tree0 ∧
      populateAll tree0 dataset (2 * leaves - 1).toNat = some tree ∧
      (findMinMax dataset = some (mn, mx) → buildTree leaves dataset = some tree) ∧
      encrypt tree dataset.length = some (ciphers, bound) ∧
      bound = 2 * (dataset.length : Int) ∧
      (dataset.length : Int) ≤ ∑ i in Finset.range tree.length, valueAt tree i ∧
      ((∑ i in Finset.range tree.length, valueAt tree i) = dataset.length ↔
        (leaves = 1 ∨ dataset = [])) ∧
      (2 ≤ leaves → bound ≤ ∑ i in Finset.range tree.length, valueAt tree i) ∧
      ((∑ i in Finset.range tree.length, valueAt tree i) < bound →
        decrypt service (List.range tree.length) ciphers bound =
          some (∑ i in Finset.range tree.length, valueAt tree i)) ∧
      (leaves = 1 → dataset ≠ [] →
        decrypt service (List.range tree.length) ciphers bound =
          some (dataset.length : Int)) := by
  obtain ⟨t0, tree, h0, h1, hbt, hs⟩ := populated_spec leaves hL mn mx dataset
  have hlen := hs.1
  have hpt := plaintexts_spec tree _ _ (by
    intro j hj
    exact hs.2 j (by omega))
  have hm : tree.length = 2 * (leaves - 1).toNat + 1 := by omega
  have hall := sum_all (hits (mn, mx) dataset) (leaves - 1).toNat
    (fun i _ => hits_children (mn, mx) dataset i)
  rw [← hm, hits_zero] at hall
  have hinner : 0 ≤ ∑ i in Finset.range (leaves - 1).toNat, hits (mn, mx) dataset i :=
    Finset.sum_nonneg (fun i _ => hits_nonneg _ _ i)
  have hval : (∑ i in Finset.range tree.length, valueAt tree i)
      = ∑ i in Finset.range tree.length, hits (mn, mx) dataset i := by
    apply Finset.sum_congr rfl
    intro i hi
    exact shape_valueAt hs (by have := Finset.mem_range.mp hi; omega)
  have hroot : 2 ≤ leaves → (dataset.length : Int) ≤
      ∑ i in Finset.range (leaves - 1).toNat, hits (mn, mx) dataset i := by
    intro h2
    have := Finset.single_le_sum (f := hits (mn, mx) dataset) (fun i _ => hits_nonneg _ _ i)
      (Finset.mem_range.mpr (show 0 < (leaves - 1).toNat by omega))
    rwa [hits_zero] at this
  have hdec : (∑ i in Finset.range tree.length, valueAt tree i) < 2 * (dataset.length : Int) →
      decrypt service (List.range tree.length)
        ((List.range tree.length).map (hits (mn, mx) dataset)) (2 * (dataset.length : Int)) =
        some (∑ i in Finset.range tree.length, valueAt tree i) := by
    intro hlt
    rw [decrypt_all_eq]
    have hip := innerProduct_ones ((List.range tree.length).map (hits (mn, mx) dataset))
    rw [list_sum_range, ← hval] at hip
    have hnn : 0 ≤ ∑ i in Finset.range tree.length, valueAt tree i := by
      rw [hval, hall]; linarith [Int.natCast_nonneg dataset.length]
    have := hsvc ((List.range tree.length).map (hits (mn, mx) dataset))
      (List.replicate ((List.range tree.length).map (hits (mn, mx) dataset)).length 1)
      (2 * (dataset.length : Int)) (by simp)
      (by rw [hip]; exact hnn) (by rw [hip]; exact hlt)
    rw [this, hip]
  have hiff : (∑ i in Finset.range tree.length, valueAt tree i) = dataset.length ↔
      (leaves = 1 ∨ dataset = []) := by
    rw [hval, hall]
    constructor
    · intro heq
      by_cases hl1 : leaves = 1
      · exact Or.inl hl1
      · right
        have := hroot (by omega)
        have hz : (dataset.length : Int) = 0 := by
          linarith [Int.natCast_nonneg dataset.length]
        exact List.length_eq_zero.mp (by exact_mod_cast hz)
    · rintro (hl1 | hl1)
      · have : (leaves - 1).toNat = 0 := by omega
        rw [this]; simp
      · subst hl1
        have : ∑ i in Finset.range (leaves - 1).toNat, hits (mn, mx) [] i = 0 :=
          Finset.sum_eq_zero (fun i _ => by simp [hits])
        rw [this]; simp
  refine ⟨t0, tree, _, 2 * (dataset.length : Int), h0, h1, hbt, ?_, rfl, ?_, hiff, ?_, hdec, ?_⟩
  · unfold encrypt
    rw [hpt, mul_comm]
  · rw [hval, hall]; linarith
  · intro h2
    rw [hval, hall]
    have := hroot h2
    linarith
  · intro hl1 hne
    have hS := hiff.mpr (Or.inl hl1)
    have hpos : 0 < (dataset.length : Int) := by
      have : 0 < dataset.length := List.length_pos.mpr hne
      exact_mod_cast this
    have := hdec (by rw [hS]; linarith)
    rw [hS] at this
    exact this

theorem decrypt_all_total_witness :
    ∃ tree0 tree ciphers bound, buildOver 1 0 10 = some tree0 ∧
      populateAll tree0 [0, 10] (2 * (1 : Int) - 1).toNat = some tree ∧
      (findMinMax [0, 10] = some (0, 10) → buildTree 1 [0, 10] = some tree) ∧
      encrypt tree ([0, 10] : List ℚ).length = some (ciphers, bound) ∧
      bound = 2 * (([0, 10] : List ℚ).length : Int) ∧
      (([0, 10] : List ℚ).length : Int) ≤ ∑ i in Finset.range tree.length, valueAt tree i ∧
      ((∑ i in Finset.range tree.length, valueAt tree i) = ([0, 10] : List ℚ).length ↔
        ((1 : Int) = 1 ∨ ([0, 10] : List ℚ) = [])) ∧
      (2 ≤ (1 : Int) → bound ≤ ∑ i in Finset.range tree.length, valueAt tree i) ∧
      ((∑ i in Finset.range tree.length, valueAt tree i) < bound →
        decrypt boundedService (List.range tree.length) ciphers bound =
          some (∑ i in Finset.range tree.length, valueAt tree i)) ∧
      ((1 : Int) = 1 → ([0, 10] : List ℚ) ≠ [] →
        decrypt boundedService (List.range tree.length) ciphers bound =
          some (([0, 10] : List ℚ).length : Int)) :=
  decrypt_all_total boundedService boundedService_exact 1 (by decide) 0 10 [0, 10]

/-- C6 (counterexample): two leaves, dataset `[0, 10]`: the three counters are
2, 1, 1 and add up to 4, not to the dataset size 2.  The bound of `encrypt` is 4, so
the sum is not below it.  Whatever the service, `decrypt` hands it the counters
2, 1, 1 with the weights 1, 1, 1, whose inner product is 4; a service that reduces
the recovered value modulo the bound returns 0.  Neither value is 2. -/
theorem decrypt_all_counterexample :
    ∃ tree ciphers bound, buildTree 2 [0, 10] = some tree ∧
      encrypt tree ([0, 10] : List ℚ).length = some (ciphers, bound) ∧
      ciphers = [2, 1, 1] ∧ bound = 4 ∧
      (∑ i in Finset.range tree.length, valueAt tree i) = 4 ∧
      (∑ i in Finset.range tree.length, valueAt tree i) ≠ (([0, 10] : List ℚ).length : Int) ∧
      ¬ ((∑ i in Finset.range tree.length, valueAt tree i) < bound) ∧
      (∀ service : DecryptService,
        decrypt service (List.range tree.length) ciphers bound
          = service [2, 1, 1] [1, 1, 1] 4) ∧
      innerProduct [2, 1, 1] [1, 1, 1] = 4 ∧
      decrypt (fun xs ys b => some (innerProduct xs ys % b)) (List.range tree.length)
        ciphers bound = some 0 := by
  refine ⟨[some ⟨(0, 10), 2⟩, some ⟨(0, 5), 1⟩, some ⟨(5, 10), 1⟩], [2, 1, 1], 4,
    ?_, ?_, rfl, rfl, ?_, ?_, ?_, ?_, ?_, ?_⟩
  · simp [buildTree, findMinMax, buildOver, setNode, build, populateAll, populate, getNode]
    norm_num
  · simp [encrypt, plaintexts]
  · simp [Finset.sum_range_succ, valueAt, getNode]
  · simp [Finset.sum_range_succ, valueAt, getNode]
  · simp [Finset.sum_range_succ, valueAt, getNode]
  · intro service
    simp [decrypt, prune, List.range_succ, List.replicate]
  · simp [innerProduct]
  · simp [decrypt, prune, List.range_succ, List.replicate, innerProduct]

/-! ## The two traversals -/

theorem rangeOf_valid {root : ℚ × ℚ} (h : root.1 ≤ root.2) (j : Nat) :
    (rangeOf root j).1 ≤ (rangeOf root j).2 := by
  induction desc_zero j with
  | refl => rw [rangeOf_zero]; exact h
  | left _ ih => rw [rangeOf_left]; exact (middleOf_between_le ih).1
  | right _ ih => rw [rangeOf_right]; exact (middleOf_between_le ih).2

theorem rangeOf_nested {root : ℚ × ℚ} (h : root.1 ≤ root.2) {c j : Nat} (hd : Desc c j) :
    (rangeOf root c).1 ≤ (rangeOf root j).1 ∧ (rangeOf root j).2 ≤ (rangeOf root c).2 := by
  induction hd with
  | refl => exact ⟨le_refl _, le_refl _⟩
  | @left k _ ih =>
    rw [rangeOf_left]
    exact ⟨ih.1, le_trans (middleOf_between_le (rangeOf_valid h k)).2 ih.2⟩
  | @right k _ ih =>
    rw [rangeOf_right]
    exact ⟨le_trans ih.1 (middleOf_between_le (rangeOf_valid h k)).1, ih.2⟩

/-- The result of `traverseBottom` at a node whose range overlaps the query: the
childless nodes below it whose range `[a, b]` has `lo < b` and `a < hi`, each
once. -/
theorem traverseBottom_spec (root : ℚ × ℚ) (hroot : root.1 ≤ root.2) (n : Nat) (hfull : Full n)
    (lo hi : ℚ) (hq : lo < hi) :
    ∀ (k i : Nat) (val : Nat → Int) (tree : Tree), n - i = k → i < n →
      Shape (rangeOf root) val n tree →
      lo < (rangeOf root i).2 → (rangeOf root i).1 < hi →
      ∃ sel, traverseBottom tree i (lo, hi) n = some sel ∧ sel ≠ [] ∧ sel.Nodup ∧
        ∀ j, j ∈ sel ↔
          (Desc i j ∧ j < n ∧ 2 * j + 1 ≥ n ∧
            lo < (rangeOf root j).2 ∧ (rangeOf root j).1 < hi) := by
  intro k
  induction k using Nat.strong_induction_on with
  | _ k ih =>
    intro i val tree hk hin hs h1 h2
    rw [traverseBottom]
    by_cases hleaf : 2 * i + 1 ≥ n
    · simp only [hleaf, ↓reduceDIte]
      refine ⟨[i], rfl, by simp, by simp, ?_⟩
      intro j
      simp only [List.mem_singleton]
      constructor
      · intro h; subst h
        exact ⟨Desc.refl, hin, hleaf, h1, h2⟩
      · rintro ⟨hd, hj, _, _, _⟩
        rcases desc_cases hd with h0 | h | h
        · exact h0
        · have := h.le; omega
        · have := h.le; omega
    · simp only [hleaf, ↓reduceDIte]
      have hl : 2 * i + 1 < n := by omega
      have hr : 2 * i + 2 < n := hfull i hl
      have hr' : ¬ (2 * i + 2 ≥ n) := by omega
      have hv := middleOf_between_le (rangeOf_valid hroot i)
      rw [shape_getNode hs hl, shape_getNode hs hr]
      simp only [rangeOf_left, rangeOf_right, hr', ↓reduceIte, gt_iff_lt]
      have notself : ∀ j, 2 * j + 1 ≥ n → j ≠ i := by
        intro j hj h; subst h; omega
      by_cases hA : lo < middleOf (rangeOf root i)
      · obtain ⟨selL, hL, neL, ndL, memL⟩ :=
          ih (n - (2 * i + 1)) (by omega) (2 * i + 1) val tree rfl hl hs
            (by rw [rangeOf_left]; exact hA) (by rw [rangeOf_left]; exact h2)
        simp only [hA, ↓reduceIte, hL]
        by_cases hB : middleOf (rangeOf root i) < hi
        · obtain ⟨selR, hR, neR, ndR, memR⟩ :=
            ih (n - (2 * i + 2)) (by omega) (2 * i + 2) val tree rfl hr hs
              (by rw [rangeOf_right]; exact h1) (by rw [rangeOf_right]; exact hB)
          simp only [hB, ↓reduceIte, hR]
          refine ⟨selL ++ selR, rfl, by simp [neL], ?_, ?_⟩
          · rw [List.nodup_append]
            refine ⟨ndL, ndR, ?_⟩
            intro j hjL hjR
            exact desc_disjoint ((memL j).mp hjL).1 ((memR j).mp hjR).1
          · intro j
            rw [List.mem_append, memL, memR]
            constructor
            · rintro (⟨hd, hrest⟩ | ⟨hd, hrest⟩)
              · exact ⟨desc_of_left hd, hrest⟩
              · exact ⟨desc_of_right hd, hrest⟩
            · rintro ⟨hd, hj, hlf, ha, hb⟩
              rcases desc_cases hd with h0 | h | h
              · exact absurd h0 (notself j hlf)
              · exact Or.inl ⟨h, hj, hlf, ha, hb⟩
              · exact Or.inr ⟨h, hj, hlf, ha, hb⟩
        · simp only [hB, ↓reduceIte]
          refine ⟨selL, rfl, neL, ndL, ?_⟩
          intro j
          rw [memL]
          constructor
          · rintro ⟨hd, hrest⟩
            exact ⟨desc_of_left hd, hrest⟩
          · rintro ⟨hd, hj, hlf, ha, hb⟩
            rcases desc_cases hd with h0 | h | h
            · exact absurd h0 (notself j hlf)
            · exact ⟨h, hj, hlf, ha, hb⟩
            · exfalso
              have := (rangeOf_nested hroot h).1
              rw [rangeOf_right] at this
              simp only at this
              linarith
      · simp only [hA, ↓reduceIte]
        have hB : middleOf (rangeOf root i) < hi := by linarith
        obtain ⟨selR, hR, neR, ndR, memR⟩ :=
          ih (n - (2 * i + 2)) (by omega) (2 * i + 2) val tree rfl hr hs
            (by rw [rangeOf_right]; exact h1) (by rw [rangeOf_right]; exact hB)
        simp only [hB, ↓reduceIte, hR, List.nil_append]
        refine ⟨selR, rfl, neR, ndR, ?_⟩
        intro j
        rw [memR]
        constructor
        · rintro ⟨hd, hrest⟩
          exact ⟨desc_of_right hd, hrest⟩
        · rintro ⟨hd, hj, hlf, ha, hb⟩
          rcases desc_cases hd with h0 | h | h
          · exact absurd h0 (notself j hlf)
          · exfalso
            have := (rangeOf_nested hroot h).2
            rw [rangeOf_left] at this
            simp only at this
            linarith
          · exact ⟨h, hj, hlf, ha, hb⟩

/-- The result of `traverseNearest` at a node enclosing the query: a node that
encloses the query and is childless or has no enclosing child. -/
theorem traverseNearest_spec (root : ℚ × ℚ) (n : Nat) (hfull : Full n) (lo hi : ℚ) :
    ∀ (k i : Nat) (val : Nat → Int) (tree : Tree), n - i = k → i < n →
      Shape (rangeOf root) val n tree →
      (rangeOf root i).1 ≤ lo → hi ≤ (rangeOf root i).2 →
      ∃ r, traverseNearest tree i (lo, hi) n = some r ∧ r < n ∧
        (rangeOf root r).1 ≤ lo ∧ hi ≤ (rangeOf root r).2 ∧
        (2 * r + 1 ≥ n ∨
          (2 * r + 2 < n ∧
            ¬ ((rangeOf root (2 * r + 1)).1 ≤ lo ∧ hi ≤ (rangeOf root (2 * r + 1)).2) ∧
            ¬ ((rangeOf root (2 * r + 2)).1 ≤ lo ∧ hi ≤ (rangeOf root (2 * r + 2)).2))) := by
  intro k
  induction k using Nat.strong_induction_on with
  | _ k ih =>
    intro i val tree hk hin hs h1 h2
    rw [traverseNearest]
    by_cases hleaf : 2 * i + 1 ≥ n
    · simp only [hleaf, ↓reduceDIte]
      exact ⟨i, rfl, hin, h1, h2, Or.inl hleaf⟩
    · simp only [hleaf, ↓reduceDIte]
      have hl : 2 * i + 1 < n := by omega
      have hr : 2 * i + 2 < n := hfull i hl
      have hr' : ¬ (2 * i + 2 ≥ n) := by omega
      rw [shape_getNode hs hl, shape_getNode hs hr]
      simp only [hr', ↓reduceIte, ge_iff_le]
      by_cases hA : (rangeOf root (2 * i + 1)).1 ≤ lo ∧ hi ≤ (rangeOf root (2 * i + 1)).2
      · simp only [hA, and_self, ↓reduceIte]
        exact ih (n - (2 * i + 1)) (by omega) (2 * i + 1) val tree rfl hl hs hA.1 hA.2
      · simp only [hA, ↓reduceIte]
        by_cases hB : (rangeOf root (2 * i + 2)).1 ≤ lo ∧ hi ≤ (rangeOf root (2 * i + 2)).2
        · simp only [hB, and_self, ↓reduceIte]
          exact ih (n - (2 * i + 2)) (by omega) (2 * i + 2) val tree rfl hr hs hB.1 hB.2
        · simp only [hB, ↓reduceIte]
          exact ⟨i, rfl, hin, h1, h2, Or.inr ⟨hr, hA, hB⟩⟩

/-! ## Query planning (C3, C10, C4) -/

/-- C3: over a domain `min < max` and for a query `lo < hi` inside the root's
range, `traverseBottom` from the root returns every childless node whose
closed-open range shares a point with the query range `[lo, hi)`. -/
theorem traverseBottom_covers (leaves : Int) (hL : 1 ≤ leaves) (mn mx : ℚ) (hdom : mn < mx)
    (lo hi : ℚ) (hq : lo < hi) (hlo : mn ≤ lo) (hhi : hi ≤ mx) :
    ∃ tree root sel, buildOver leaves mn mx = some tree ∧
      getNode tree 0 = some root ∧ root.Range = (mn, mx) ∧
      traverseBottom tree 0 (lo, hi) tree.length = some sel ∧
      ∀ j node, j < tree.length → 2 * j + 1 ≥ tree.length → getNode tree j = some node →
        (∃ x, node.Range.1 ≤ x ∧ x < node.Range.2 ∧ lo ≤ x ∧ x < hi) → j ∈ sel := by
  obtain ⟨tree, hb, hs⟩ := buildOver_spec leaves hL mn mx
  have hlen := hs.1
  obtain ⟨sel, ht, _, _, hmem⟩ :=
    traverseBottom_spec (mn, mx) (le_of_lt hdom) _ (full_nodes leaves hL) lo hi hq
      ((2 * leaves - 1).toNat - 0) 0 _ tree rfl (by omega) hs
      (by rw [rangeOf_zero]; exact lt_of_lt_of_le hq hhi)
      (by rw [rangeOf_zero]; exact lt_of_le_of_lt hlo hq)
  refine ⟨tree, _, sel, hb, shape_getNode hs (by omega), by rw [rangeOf_zero], ?_, ?_⟩
  · rw [hlen]; exact ht
  · intro j node hj hleaf hnode
    rw [hlen] at hj hleaf
    rw [shape_getNode hs hj] at hnode
    simp only [Option.some.injEq] at hnode
    subst hnode
    rintro ⟨x, hx1, hx2, hx3, hx4⟩
    simp only at hx1 hx2
    exact (hmem j).mpr ⟨desc_zero j, hj, hleaf, by linarith, by linarith⟩

theorem traverseBottom_covers_witness :
    ∃ tree root sel, buildOver 4 0 10 = some tree ∧
      getNode tree 0 = some root ∧ root.Range = (0, 10) ∧
      traverseBottom tree 0 (6, 9) tree.length = some sel ∧
      ∀ j node, j < tree.length → 2 * j + 1 ≥ tree.length → getNode tree j = some node →
        (∃ x, node.Range.1 ≤ x ∧ x < node.Range.2 ∧ 6 ≤ x ∧ x < 9) → j ∈ sel :=
  traverseBottom_covers 4 (by decide) 0 10 (by norm_num) 6 9 (by norm_num) (by norm_num)
    (by norm_num)

/-- C10 (amended): over a domain `min < max` and for a query `lo < hi` inside the
root's range, `traverseBottom` from the root returns, each once, exactly the
childless nodes whose range `[a, b)` has `lo < b` and `a < hi`; the result is not
empty, and no returned leaf has `b = lo` or `a = hi`. -/
theorem traverseBottom_exact (leaves : Int) (hL : 1 ≤ leaves) (mn mx : ℚ) (hdom : mn < mx)
    (lo hi : ℚ) (hq : lo < hi) (hlo : mn ≤ lo) (hhi : hi ≤ mx) :
    ∃ tree root sel, buildOver leaves mn mx = some tree ∧
      getNode tree 0 = some root ∧ root.Range = (mn, mx) ∧
      traverseBottom tree 0 (lo, hi) tree.length = some sel ∧
      sel.Nodup ∧ sel ≠ [] ∧
      (∀ j, j ∈ sel ↔
        (j < tree.length ∧ 2 * j + 1 ≥ tree.length ∧
          ∃ node, getNode tree j = some node ∧ lo < node.Range.2 ∧ node.Range.1 < hi)) ∧
      (∀ j, j ∈ sel → ∀ node, getNode tree j = some node →
        node.Range.2 ≠ lo ∧ node.Range.1 ≠ hi) := by
  obtain ⟨tree, hb, hs⟩ := buildOver_spec leaves hL mn mx
  have hlen := hs.1
  obtain ⟨sel, ht, hne, hnd, hmem⟩ :=
    traverseBottom_spec (mn, mx) (le_of_lt hdom) _ (full_nodes leaves hL) lo hi hq
      ((2 * leaves - 1).toNat - 0) 0 _ tree rfl (by omega) hs
      (by rw [rangeOf_zero]; exact lt_of_lt_of_le hq hhi)
      (by rw [rangeOf_zero]; exact lt_of_le_of_lt hlo hq)
  refine ⟨tree, _, sel, hb, shape_getNode hs (by omega), by rw [rangeOf_zero], ?_, hnd, hne,
    ?_, ?_⟩
  · rw [hlen]; exact ht
  · intro j
    rw [hmem j, hlen]
    constructor
    · rintro ⟨_, hj, hleaf, ha, hb'⟩
      exact ⟨hj, hleaf, _, shape_getNode hs hj, ha, hb'⟩
    · rintro ⟨hj, hleaf, node, hnode, ha, hb'⟩
      rw [shape_getNode hs hj] at hnode
      simp only [Option.some.injEq] at hnode
      subst hnode
      exact ⟨desc_zero j, hj, hleaf, ha, hb'⟩
  · intro j hjs node hnode
    obtain ⟨_, hj, _, ha, hb'⟩ := (hmem j).mp hjs
    rw [shape_getNode hs hj] at hnode
    simp only [Option.some.injEq] at hnode
    subst hnode
    exact ⟨ne_of_gt ha, ne_of_lt hb'⟩

theorem traverseBottom_exact_witness :
    ∃ tree root sel, buildOver 4 0 10 = some tree ∧
      getNode tree 0 = some root ∧ root.Range = (0, 10) ∧
      traverseBottom tree 0 (5, 10) tree.length = some sel ∧
      sel.Nodup ∧ sel ≠ [] ∧
      (∀ j, j ∈ sel ↔
        (j < tree.length ∧ 2 * j + 1 ≥ tree.length ∧
          ∃ node, getNode tree j = some node ∧ 5 < node.Range.2 ∧ node.Range.1 < 10)) ∧
      (∀ j, j ∈ sel → ∀ node, getNode tree j = some node →
        node.Range.2 ≠ 5 ∧ node.Range.1 ≠ 10) :=
  traverseBottom_exact 4 (by decide) 0 10 (by norm_num) 5 10 (by norm_num) (by norm_num)
    (by norm_num)

/-! ### Rounding at work: a returned leaf with an empty range -/

theorem roundEven_int (n : Int) : roundEven (n : ℚ) = n := by
  simp [roundEven]

theorem roundEven_half_even (n : Int) (h : n % 2 = 0) : roundEven ((n : ℚ) + 1 / 2) = n := by
  have hf : ⌊(n : ℚ) + 1 / 2⌋ = n := by
    rw [Int.floor_eq_iff]; constructor <;> norm_num
  have hd : (n : ℚ) + 1 / 2 - n = 1 / 2 := by ring
  unfold roundEven
  rw [hf, hd]
  simp [h]

theorem roundEven_half_odd (n : Int) (h : n % 2 = 1) : roundEven ((n : ℚ) + 1 / 2) = n + 1 := by
  have hf : ⌊(n : ℚ) + 1 / 2⌋ = n := by
    rw [Int.floor_eq_iff]; constructor <;> norm_num
  have hd : (n : ℚ) + 1 / 2 - n = 1 / 2 := by ring
  unfold roundEven
  rw [hf, hd]
  simp [h]

theorem log_two_eval (x : ℚ) (e : Nat) (h1 : (2 : ℚ) ^ e ≤ |x|) (h2 : |x| < 2 ^ (e + 1)) :
    Int.log 2 |x| = e := by
  have hpos : (0 : ℚ) < |x| := lt_of_lt_of_le (by positivity) h1
  have h1' : ((e : Int)) ≤ Int.log 2 |x| := by
    rw [← Int.zpow_le_iff_le_log (by norm_num) hpos]
    exact_mod_cast h1
  have h2' : Int.log 2 |x| < (e : Int) + 1 := by
    rw [← Int.lt_zpow_iff_log_lt (by norm_num) hpos]
    exact_mod_cast h2
  omega

/-- Evaluation of `roundF32` at a value with `2^e ≤ |x| < 2^(e+1)`. -/
theorem roundF32_eval (x : ℚ) (e : Nat) (n : Int) (h1 : (2 : ℚ) ^ e ≤ |x|)
    (h2 : |x| < 2 ^ (e + 1)) (hr : roundEven (x / 2 ^ ((e : Int) - 23)) = n) :
    roundF32 x = n * 2 ^ ((e : Int) - 23) := by
  unfold roundF32
  rw [log_two_eval x e h1 h2]
  have : max (e : Int) (-126) = e := by omega
  rw [this, hr]

theorem roundF32_one : roundF32 1 = 1 := by
  have := roundF32_eval 1 0 8388608 (by norm_num) (by norm_num) (by
    have : (1 : ℚ) / 2 ^ (((0 : Nat) : Int) - 23) = ((8388608 : Int) : ℚ) := by norm_num
    rw [this]
    exact roundEven_int _)
  rw [this]; norm_num

theorem roundF32_two : roundF32 2 = 2 := by
  have := roundF32_eval 2 1 8388608 (by norm_num) (by norm_num) (by
    have : (2 : ℚ) / 2 ^ (((1 : Nat) : Int) - 23) = ((8388608 : Int) : ℚ) := by norm_num
    rw [this]
    exact roundEven_int _)
  rw [this]; norm_num

theorem roundF32_four : roundF32 4 = 4 := by
  have := roundF32_eval 4 2 8388608 (by norm_num) (by norm_num) (by
    have : (4 : ℚ) / 2 ^ (((2 : Nat) : Int) - 23) = ((8388608 : Int) : ℚ) := by norm_num
    rw [this]
    exact roundEven_int _)
  rw [this]; norm_num

/-- The value 16777220 = 2^24 + 4 is a `float32`. -/
theorem roundF32_mid : roundF32 16777220 = 16777220 := by
  have := roundF32_eval 16777220 24 8388610 (by norm_num) (by norm_num) (by
    have : (16777220 : ℚ) / 2 ^ (((24 : Nat) : Int) - 23) = ((8388610 : Int) : ℚ) := by
      norm_num
    rw [this]
    exact roundEven_int _)
  rw [this]; norm_num

/-- The value 16777219 lies half-way between the `float32` values 16777218 and
16777220; the tie goes to 16777220, whose significand is even. -/
theorem roundF32_below : roundF32 16777219 = 16777220 := by
  have := roundF32_eval 16777219 24 8388610 (by norm_num) (by norm_num) (by
    have : (16777219 : ℚ) / 2 ^ (((24 : Nat) : Int) - 23)
        = ((8388609 : Int) : ℚ) + 1 / 2 := by norm_num
    rw [this]
    exact roundEven_half_odd _ (by decide))
  rw [this]; norm_num

/-- The value 16777221 lies half-way between the `float32` values 16777220 and
16777222; the tie goes to 16777220, whose significand is even. -/
theorem roundF32_above : roundF32 16777221 = 16777220 := by
  have := roundF32_eval 16777221 24 8388610 (by norm_num) (by norm_num) (by
    have : (16777221 : ℚ) / 2 ^ (((24 : Nat) : Int) - 23)
        = ((8388610 : Int) : ℚ) + 1 / 2 := by norm_num
    rw [this]
    exact roundEven_half_even _ (by decide))
  rw [this]; norm_num

/-- The tree that the `float32` construction builds for 4 leaves over
`[16777218, 16777222]`: the midpoints 16777219 and 16777221 of the two halves both
round to 16777220, so the leaves 4 and 5 have the range `[16777220, 16777220]`. -/
theorem buildOverF32_collapsed :
    buildOverF32 4 16777218 16777222 =
      some [some ⟨(16777218, 16777222), 0⟩, some ⟨(16777218, 16777220), 0⟩,
        some ⟨(16777220, 16777222), 0⟩, some ⟨(16777218, 16777220), 0⟩,
        some ⟨(16777220, 16777220), 0⟩, some ⟨(16777220, 16777220), 0⟩,
        some ⟨(16777220, 16777222), 0⟩] := by
  have e1 : (16777222 : ℚ) - 16777218 = 4 := by norm_num
  have e2 : (16777220 : ℚ) - 16777218 = 2 := by norm_num
  have e3 : (16777222 : ℚ) - 16777220 = 2 := by norm_num
  have e4 : (4 : ℚ) / 2 = 2 := by norm_num
  have e5 : (2 : ℚ) / 2 = 1 := by norm_num
  have e6 : (16777218 : ℚ) + 2 = 16777220 := by norm_num
  have e7 : (16777218 : ℚ) + 1 = 16777219 := by norm_num
  have e8 : (16777220 : ℚ) + 1 = 16777221 := by norm_num
  simp [buildOverF32, setNode, buildF32, e1, e2, e3, e4, e5, e6, e7, e8, roundF32_one,
    roundF32_two, roundF32_four, roundF32_mid, roundF32_below, roundF32_above]

/-- C10 (counterexample): 4 leaves over `[16777218, 16777222]` built with `float32`
arithmetic, query `(16777218, 16777222)`: `traverseBottom` returns the leaves 3, 4,
5, 6, and the leaves 4 and 5 have the range `[16777220, 16777220]`, which holds no
point, so they do not overlap the query on an interval of positive length. -/
theorem traverseBottom_overlap_counterexample :
    ∃ tree root sel leaf, buildOverF32 4 16777218 16777222 = some tree ∧
      getNode tree 0 = some root ∧ root.Range = (16777218, 16777222) ∧
      traverseBottom tree 0 (16777218, 16777222) tree.length = some sel ∧
      sel = [3, 4, 5, 6] ∧ 4 ∈ sel ∧ 2 * 4 + 1 ≥ tree.length ∧
      getNode tree 4 = some leaf ∧ leaf.Range = (16777220, 16777220) ∧
      (¬ ∃ x : ℚ, leaf.Range.1 ≤ x ∧ x < leaf.Range.2) ∧
      ¬ (max leaf.Range.1 16777218 < min leaf.Range.2 16777222) := by
  refine ⟨_, ⟨(16777218, 16777222), 0⟩, [3, 4, 5, 6], ⟨(16777220, 16777220), 0⟩,
    buildOverF32_collapsed, ?_, rfl, ?_, rfl, by simp, by simp, ?_, rfl, ?_, ?_⟩
  · simp [getNode]
  · simp [traverseBottom, getNode]
    norm_num
  · simp [getNode]
  · rintro ⟨x, h1, h2⟩
    simp only at h1 h2
    linarith
  · simp

/-! ### The nearest enclosing node (C4) -/

/-- C4: over a domain `min < max` and for a query with `min ≤ lo ≤ hi ≤ max`,
`traverseNearest` from the root returns a valid index whose node encloses the
query and which is childless or has two children neither of which encloses the
query. -/
theorem traverseNearest_encloses (leaves : Int) (hL : 1 ≤ leaves) (mn mx : ℚ) (_hdom : mn < mx)
    (lo hi : ℚ) (hlo : mn ≤ lo) (_hq : lo ≤ hi) (hhi : hi ≤ mx) :
    ∃ tree root i node, buildOver leaves mn mx = some tree ∧
      getNode tree 0 = some root ∧ root.Range = (mn, mx) ∧
      traverseNearest tree 0 (lo, hi) tree.length = some i ∧
      i < tree.length ∧ getNode tree i = some node ∧
      node.Range.1 ≤ lo ∧ hi ≤ node.Range.2 ∧
      (2 * i + 1 ≥ tree.length ∨
        ∃ left right, getNode tree (2 * i + 1) = some left ∧
          getNode tree (2 * i + 2) = some right ∧
          ¬ (left.Range.1 ≤ lo ∧ hi ≤ left.Range.2) ∧
          ¬ (right.Range.1 ≤ lo ∧ hi ≤ right.Range.2)) := by
  obtain ⟨tree, hb, hs⟩ := buildOver_spec leaves hL mn mx
  have hlen := hs.1
  obtain ⟨r, ht, hr, h1, h2, h3⟩ :=
    traverseNearest_spec (mn, mx) _ (full_nodes leaves hL) lo hi
      ((2 * leaves - 1).toNat - 0) 0 _ tree rfl (by omega) hs
      (by rw [rangeOf_zero]; exact hlo) (by rw [rangeOf_zero]; exact hhi)
  refine ⟨tree, _, r, _, hb, shape_getNode hs (by omega), by rw [rangeOf_zero], ?_, ?_,
    shape_getNode hs hr, h1, h2, ?_⟩
  · rw [hlen]; exact ht
  · rw [hlen]; exact hr
  · rw [hlen]
    rcases h3 with h3 | ⟨hr2, hA, hB⟩
    · exact Or.inl h3
    · exact Or.inr ⟨_, _, shape_getNode hs (by omega), shape_getNode hs hr2, hA, hB⟩

theorem traverseNearest_encloses_witness :
    ∃ tree root i node, buildOver 4 0 10 = some tree ∧
      getNode tree 0 = some root ∧ root.Range = (0, 10) ∧
      traverseNearest tree 0 (4, 10) tree.length = some i ∧
      i < tree.length ∧ getNode tree i = some node ∧
      node.Range.1 ≤ 4 ∧ 10 ≤ node.Range.2 ∧
      (2 * i + 1 ≥ tree.length ∨
        ∃ left right, getNode tree (2 * i + 1) = some left ∧
          getNode tree (2 * i + 2) = some right ∧
          ¬ (left.Range.1 ≤ 4 ∧ 10 ≤ left.Range.2) ∧
          ¬ (right.Range.1 ≤ 4 ∧ 10 ≤ right.Range.2)) :=
  traverseNearest_encloses 4 (by decide) 0 10 (by norm_num) 4 10 (by norm_num) (by norm_num)
    (by norm_num)

/-! ## The concrete scenario (C5) -/

/-- C5 (counterexample): four leaves over the domain 0..10, dataset
`[1,2,3,6,7,8,9]`, query `(6, 9)`: `traverseBottom` selects the leaves 5 and 6,
whose counters 2 and 2 add up to 4, while 3 dataset points lie in `[6, 9)`.  The
tree that `buildTree` itself builds (domain 1..9) gives 1 + 3 = 4 as well. -/
theorem exact_leaf_scenario_counterexample :
    ∃ tree0 tree sel, buildOver 4 0 10 = some tree0 ∧
      populateAll tree0 [1, 2, 3, 6, 7, 8, 9] 7 = some tree ∧
      traverseBottom tree 0 (6, 9) tree.length = some sel ∧
      ([1, 2, 3, 6, 7, 8, 9] : List ℚ).countP (fun v => decide (6 ≤ v ∧ v < 9)) = 3 ∧
      (sel.map (valueAt tree)).sum ≠ 3 ∧
      ∃ tree' sel', buildTree 4 [1, 2, 3, 6, 7, 8, 9] = some tree' ∧
        traverseBottom tree' 0 (6, 9) tree'.length = some sel' ∧
        (sel'.map (valueAt tree')).sum ≠ 3 := by
  refine ⟨[some ⟨(0, 10), 0⟩, some ⟨(0, 5), 0⟩, some ⟨(5, 10), 0⟩, some ⟨(0, 5 / 2), 0⟩,
      some ⟨(5 / 2, 5), 0⟩, some ⟨(5, 15 / 2), 0⟩, some ⟨(15 / 2, 10), 0⟩],
    [some ⟨(0, 10), 7⟩, some ⟨(0, 5), 3⟩, some ⟨(5, 10), 4⟩, some ⟨(0, 5 / 2), 2⟩,
      some ⟨(5 / 2, 5), 1⟩, some ⟨(5, 15 / 2), 2⟩, some ⟨(15 / 2, 10), 2⟩],
    [5, 6], ?_, ?_, ?_, ?_, ?_,
    [some ⟨(1, 9), 7⟩, some ⟨(1, 5), 3⟩, some ⟨(5, 9), 4⟩, some ⟨(1, 3), 2⟩,
      some ⟨(3, 5), 1⟩, some ⟨(5, 7), 1⟩, some ⟨(7, 9), 3⟩],
    [5, 6], ?_, ?_, ?_⟩
  · simp [buildOver, setNode, build]
    norm_num
  · simp [populateAll, populate, getNode]
    norm_num
  · simp [traverseBottom, getNode]
    norm_num
  · simp [List.countP_cons]
    norm_num
  · simp [valueAt, getNode]
  · simp [buildTree, findMinMax, buildOver, setNode, build, populateAll, populate, getNode]
    norm_num
  · simp [traverseBottom, getNode]
    norm_num
  · simp [valueAt, getNode]

/-- C5 (amended): in the scenario (four leaves over 0..10, dataset
`[1,2,3,6,7,8,9]`, no noise, query `(6, 9)`) `traverseBottom` returns the leaves
5 and 6 with ranges `[5, 7.5)` and `[7.5, 10)`, and the sum of their counters is
4, the number of dataset points in the union `[5, 10]` of the selected ranges. -/
theorem exact_leaf_scenario :
    ∃ tree0 tree sel, buildOver 4 0 10 = some tree0 ∧
      populateAll tree0 [1, 2, 3, 6, 7, 8, 9] 7 = some tree ∧
      traverseBottom tree 0 (6, 9) tree.length = some sel ∧
      sel = [5, 6] ∧
      getNode tree 5 = some { Range := (5, 15 / 2), Value := 2 } ∧
      getNode tree 6 = some { Range := (15 / 2, 10), Value := 2 } ∧
      (sel.map (valueAt tree)).sum = 4 ∧
      ([1, 2, 3, 6, 7, 8, 9] : List ℚ).countP (fun v => decide (5 ≤ v ∧ v ≤ 10)) = 4 := by
  refine ⟨[some ⟨(0, 10), 0⟩, some ⟨(0, 5), 0⟩, some ⟨(5, 10), 0⟩, some ⟨(0, 5 / 2), 0⟩,
      some ⟨(5 / 2, 5), 0⟩, some ⟨(5, 15 / 2), 0⟩, some ⟨(15 / 2, 10), 0⟩],
    [some ⟨(0, 10), 7⟩, some ⟨(0, 5), 3⟩, some ⟨(5, 10), 4⟩, some ⟨(0, 5 / 2), 2⟩,
      some ⟨(5 / 2, 5), 1⟩, some ⟨(5, 15 / 2), 2⟩, some ⟨(15 / 2, 10), 2⟩],
    [5, 6], ?_, ?_, ?_, rfl, ?_, ?_, ?_, ?_⟩
  · simp [buildOver, setNode, build]
    norm_num
  · simp [populateAll, populate, getNode]
    norm_num
  · simp [traverseBottom, getNode]
    norm_num
  · simp [getNode]
  · simp [getNode]
  · simp [valueAt, getNode]
  · simp [List.countP_cons]
    norm_num

/-! ## Configuration checks (C7) -/

theorem nodesInt_exact (w : Nat) (hw : w = 32 ∨ w = 64) (leaves : Int)
    (h1 : -(2 ^ (w - 2)) < leaves) (h2 : leaves ≤ 2 ^ (w - 2)) :
    nodesInt w leaves = 2 * leaves - 1 := by
  rcases hw with hw | hw
  · subst hw
    norm_num at h1 h2
    unfold nodesInt wrapInt
    norm_num
    omega
  · subst hw
    norm_num at h1 h2
    unfold nodesInt wrapInt
    norm_num
    omega

/-- Outside that range the node count can wrap: on a 64-bit `int` the leaf count
`-9223372036854775807` gives `nodes = 1`. -/
theorem nodesInt_wraps : nodesInt 64 (-9223372036854775807) = 1 := by
  unfold nodesInt wrapInt
  norm_num

/-- C7 (amended): there is no configuration check.  For a leaf count `L < 1` whose
node count `2L - 1` does not wrap on the Go `int` (`-2^(w-2) < L` for the width
`w` of 32 or 64 bits) the node count is negative and the allocation panics, so no
tree is returned; a degenerate domain is not rejected: for a leaf count of at least
1 a tree of `2L - 1` nodes is returned for every domain, `min ≥ max` included,
and for every non-empty dataset, one with all values equal included. -/
theorem build_no_validation (leaves : Int) (mn mx : ℚ) (dataset : List ℚ) :
    (∀ w : Nat, w = 32 ∨ w = 64 → -(2 ^ (w - 2)) < leaves → leaves < 1 →
      nodesInt w leaves = 2 * leaves - 1 ∧ nodesInt w leaves < 0 ∧
      buildOver leaves mn mx = none ∧ buildTree leaves dataset = none) ∧
    (1 ≤ leaves → ∃ tree, buildOver leaves mn mx = some tree ∧
      (tree.length : Int) = 2 * leaves - 1) ∧
    (1 ≤ leaves → dataset ≠ [] → ∃ tree, buildTree leaves dataset = some tree ∧
      (tree.length : Int) = 2 * leaves - 1) := by
  refine ⟨?_, ?_, ?_⟩
  · intro w hw hlow h
    have hn : 2 * leaves - 1 < 0 := by omega
    have hup : leaves ≤ 2 ^ (w - 2) := by
      have : (0 : Int) ≤ 2 ^ (w - 2) := by positivity
      omega
    have hnodes := nodesInt_exact w hw leaves hlow hup
    refine ⟨hnodes, by rw [hnodes]; exact hn, ?_, ?_⟩
    · unfold buildOver
      simp only [hn, ↓reduceIte]
    · unfold buildTree
      simp only [hn, ↓reduceIte]
  · intro h
    obtain ⟨tree, hb, hs⟩ := buildOver_spec leaves h mn mx
    exact ⟨tree, hb, by rw [hs.1]; omega⟩
  · intro h hne
    obtain ⟨a, b, hmm⟩ := findMinMax_some hne
    obtain ⟨tree, hb, hs⟩ := buildTree_spec leaves h dataset a b hmm
    exact ⟨tree, hb, by rw [hs.1]; omega⟩

theorem build_no_validation_witness :
    (nodesInt 64 0 = 2 * 0 - 1 ∧ nodesInt 64 0 < 0 ∧
      buildOver 0 0 10 = none ∧ buildTree 0 [0, 10] = none) ∧
    (∃ tree, buildOver 2 5 5 = some tree ∧ (tree.length : Int) = 2 * 2 - 1) ∧
    (∃ tree, buildTree 2 [5, 5] = some tree ∧ (tree.length : Int) = 2 * 2 - 1) :=
  ⟨(build_no_validation 0 0 10 [0, 10]).1 64 (Or.inr rfl) (by norm_num) (by decide),
   (build_no_validation 2 5 5 [5, 5]).2.1 (by decide),
   (build_no_validation 2 5 5 [5, 5]).2.2 (by decide) (by simp)⟩

/-- C7 (counterexample): two leaves and the dataset `[5, 5]`, whose minimum and
maximum are both 5: `buildTree` returns a tree, with every range `[5, 5]`. -/
theorem build_rejects_counterexample :
    findMinMax [5, 5] = some (5, 5) ∧
    buildTree 2 [5, 5] =
      some [some { Range := (5, 5), Value := 2 }, some { Range := (5, 5), Value := 0 },
        some { Range := (5, 5), Value := 2 }] ∧
    buildTree 2 [5, 5] ≠ none := by
  have h : buildTree 2 [5, 5] =
      some [some { Range := (5, 5), Value := 2 }, some { Range := (5, 5), Value := 0 },
        some { Range := (5, 5), Value := 2 }] := by
    simp [buildTree, findMinMax, buildOver, setNode, build, populateAll, populate, getNode]
  refine ⟨by simp [findMinMax], h, ?_⟩
  rw [h]; simp

/-! ## Query sampling (C8) -/

/-- C8 (the code at the failing input): two leaves, dataset `[5, 10]`, draws
`r1 = 0` and `r2 = 1/2`.  Both ends of the query are a draw times the root's upper
bound 10, the root's lower bound 5 is not used: the query range is `(0, 5)`, its
lower end lies below the root's range `[5, 10]`, and `query` returns leaf 1 and the
root, neither of which encloses the query. -/
theorem query_outside_root :
    ∃ tree root left, buildTree 2 [5, 10] = some tree ∧ getNode tree 0 = some root ∧
      root.Range = (5, 10) ∧
      queryRange tree 0 (1 / 2) = some (0, 5) ∧
      ¬ (root.Range.1 ≤ 0) ∧
      query tree 0 (1 / 2) = some ([1], [0]) ∧
      getNode tree 1 = some left ∧ left.Range = (5, 15 / 2) ∧ ¬ (left.Range.1 ≤ 0) := by
  refine ⟨[some ⟨(5, 10), 2⟩, some ⟨(5, 15 / 2), 1⟩, some ⟨(15 / 2, 10), 1⟩], ⟨(5, 10), 2⟩,
    ⟨(5, 15 / 2), 1⟩, ?_, ?_, rfl, ?_, ?_, ?_, ?_, rfl, ?_⟩
  · simp [buildTree, findMinMax, buildOver, setNode, build, populateAll, populate, getNode]
    norm_num
  · simp [getNode]
  · simp [queryRange, getNode]
    norm_num
  · norm_num
  · simp [query, queryRange, traverseBottom, traverseNearest, getNode]
    norm_num
  · simp [getNode]
  · norm_num

/-! ## Shape of the array (C9) -/

/-- C9: for a leaf count `leaves ≥ 1` the tree has `N = 2*leaves - 1` entries;
every index below `N` has both child indices in bounds or neither, the guard of
the "left child only" branches never holds, and the childless indices are exactly
the `leaves` indices `leaves - 1, ..., 2*leaves - 2`. -/
theorem full_tree_shape (leaves : Int) (hL : 1 ≤ leaves) (mn mx : ℚ) :
    ∃ tree, buildOver leaves mn mx = some tree ∧
      (tree.length : Int) = 2 * leaves - 1 ∧
      (∀ i, i < tree.length →
        (2 * i + 1 < tree.length ∧ 2 * i + 2 < tree.length) ∨
        (2 * i + 1 ≥ tree.length ∧ 2 * i + 2 ≥ tree.length)) ∧
      (∀ i, ¬ leftOnly i tree.length) ∧
      (∀ i, i < tree.length →
        (childless i tree.length ↔ leaves - 1 ≤ (i : Int) ∧ (i : Int) ≤ 2 * leaves - 2)) ∧
      (((Finset.range tree.length).filter (fun i => childless i tree.length)).card : Int)
        = leaves := by
  obtain ⟨tree, hb, hs⟩ := buildOver_spec leaves hL mn mx
  have hlen := hs.1
  refine ⟨tree, hb, by omega, ?_, ?_, ?_, ?_⟩
  · intro i hi
    omega
  · intro i h
    unfold leftOnly at h
    omega
  · intro i hi
    unfold childless
    omega
  · have hm : tree.length = 2 * (leaves - 1).toNat + 1 := by omega
    have hset : (Finset.range tree.length).filter (fun i => childless i tree.length)
        = Finset.Ico (leaves - 1).toNat (2 * (leaves - 1).toNat + 1) := by
      ext i
      simp only [Finset.mem_filter, Finset.mem_range, Finset.mem_Ico, childless]
      omega
    rw [hset, Nat.card_Ico]
    omega

theorem full_tree_shape_witness :
    ∃ tree, buildOver 3 0 10 = some tree ∧
      (tree.length : Int) = 2 * 3 - 1 ∧
      (∀ i, i < tree.length →
        (2 * i + 1 < tree.length ∧ 2 * i + 2 < tree.length) ∨
        (2 * i + 1 ≥ tree.length ∧ 2 * i + 2 ≥ tree.length)) ∧
      (∀ i, ¬ leftOnly i tree.length) ∧
      (∀ i, i < tree.length →
        (childless i tree.length ↔ (3 : Int) - 1 ≤ (i : Int) ∧ (i : Int) ≤ 2 * 3 - 2)) ∧
      (((Finset.range tree.length).filter (fun i => childless i tree.length)).card : Int)
        = 3 :=
  full_tree_shape 3 (by decide) 0 10

end Cw2
